import Mathlib

/-!
Shallow embedding of the `rxjs-httpclient` repository core, for checking its
natural-language specification.

The embedding covers:
* the default parameter codec (`src/parameter-codecs/HttpUrlEncodingCodec.ts`),
  including models of the JavaScript platform functions `encodeURIComponent`
  and `decodeURIComponent` (percent-encoding of UTF-8 bytes per ECMA-262, with
  strict UTF-8 decoding; a decoding failure, a `URIError` in JavaScript, is
  modelled as `Option.none`);
* the multi-valued query-parameter container (`src/HttpParams.ts`), embedded
  twice at two levels of detail: a pure parser/serializer for root containers,
  and a small-step world model with an explicit array heap that captures the
  JavaScript array-reference sharing performed by `HttpParams.init`;
* the interceptor chain assembler (`HttpInterceptingManager`,
  `HttpInterceptorHandler`);
* the request URL assembly (`HttpRequest` constructor) and the body-observation
  projection of `HttpClient.request`.

JavaScript strings are modelled as Lean `String`/`List Char` (sequences of
Unicode scalar values; lone surrogates are not modelled). JavaScript `Map` is
modelled as an insertion-ordered association list. JavaScript array references
are modelled as indices into an explicit heap of arrays where sharing matters.
-/

/-! ## The JavaScript URI codec: `encodeURIComponent` -/

/-- Hexadecimal digit character for a value below 16, uppercase, as produced
by `encodeURIComponent`. -/
def hexUpper (n : Nat) : Char :=
  if n < 10 then Char.ofNat (48 + n) else Char.ofNat (55 + n)

/-- Value of a hexadecimal digit character, case-insensitive, as accepted by
`decodeURIComponent`. -/
def hexVal? (c : Char) : Option Nat :=
  if '0' ≤ c ∧ c ≤ '9' then some (c.toNat - 48)
  else if 'A' ≤ c ∧ c ≤ 'F' then some (c.toNat - 55)
  else if 'a' ≤ c ∧ c ≤ 'f' then some (c.toNat - 87)
  else none

/-- Membership of the ECMA-262 `uriUnescaped` set: ASCII alphanumerics and
`- _ . ! ~ * ' ( )`. These characters pass through `encodeURIComponent`
unchanged; every other character is percent-encoded. -/
def uriUnescaped (c : Char) : Bool :=
  c.isAlpha || c.isDigit ||
    c = '-' || c = '_' || c = '.' || c = '!' || c = '~' || c = '*' ||
    c = '\'' || c = '(' || c = ')'

/-- UTF-8 encoding of one Unicode scalar value, as the list of its bytes. -/
def utf8Bytes (c : Char) : List Nat :=
  let n := c.toNat
  if n < 0x80 then [n]
  else if n < 0x800 then [0xC0 + n / 64, 0x80 + n % 64]
  else if n < 0x10000 then [0xE0 + n / 4096, 0x80 + n / 64 % 64, 0x80 + n % 64]
  else [0xF0 + n / 0x40000, 0x80 + n / 4096 % 64, 0x80 + n / 64 % 64, 0x80 + n % 64]

/-- Percent-escape of one byte: `%` followed by two uppercase hex digits. -/
def pctEscape (b : Nat) : List Char :=
  ['%', hexUpper (b / 16), hexUpper (b % 16)]

/-- Encoding of a single character by `encodeURIComponent`: kept verbatim when
in the unescaped set, otherwise each of its UTF-8 bytes is percent-escaped. -/
def encChar (c : Char) : List Char :=
  if uriUnescaped c then [c] else (utf8Bytes c).flatMap pctEscape

/-- Model of the JavaScript builtin `encodeURIComponent`, on character lists. -/
def encodeURIComponentL (s : List Char) : List Char :=
  s.flatMap encChar

example : encodeURIComponentL "az09-_.!~*'()".data = "az09-_.!~*'()".data := by decide
example : encodeURIComponentL "a b".data = "a%20b".data := by decide
example : encodeURIComponentL "&=?".data = "%26%3D%3F".data := by decide
example : encodeURIComponentL "é".data = "%C3%A9".data := by decide
example : encodeURIComponentL "€".data = "%E2%82%AC".data := by decide
example : encodeURIComponentL "𝄞".data = "%F0%9D%84%9E".data := by decide

/-! ## The JavaScript URI codec: `decodeURIComponent`

ECMA-262 `Decode` first turns every `%XX` escape into a byte (a malformed
escape raises `URIError`), keeps other characters as-is, and then decodes
maximal runs of escape-produced bytes as strict UTF-8 (overlong encodings,
surrogate code points and stray continuation bytes raise `URIError`).
Continuation bytes must themselves come from `%XX` escapes, so the two phases
can be modelled separately: a tokenizer and a strict byte-run decoder. -/

/-- Token stream of ECMA-262 `Decode`: a character kept verbatim, or a byte
produced from a `%XX` escape. -/
inductive UriTok where
  | raw (c : Char)
  | byte (b : Nat)
deriving DecidableEq, Repr

/-- First phase of `decodeURIComponent`: replace every `%XX` escape by its
byte value; `none` models a `URIError` for a `%` not followed by two hex
digits. -/
def uriTokens : List Char → Option (List UriTok)
  | [] => some []
  | c :: rest =>
    if c = '%' then
      match rest with
      | a :: b :: rest' =>
        match hexVal? a, hexVal? b with
        | some hi, some lo => (uriTokens rest').map (.byte (16 * hi + lo) :: ·)
        | _, _ => none
      | _ => none
    else
      (uriTokens rest).map (.raw c :: ·)

/-- Continuation-byte test for strict UTF-8 decoding. -/
def contByte (b : Nat) : Bool :=
  0x80 ≤ b && b ≤ 0xBF

/-- Second phase of `decodeURIComponent`: raw characters pass through and
escape-produced byte runs are decoded as strict UTF-8. `none` models a
`URIError` (stray continuation byte, truncated or overlong sequence, or a
surrogate code point). -/
def decodeToks : List UriTok → Option (List Char)
  | [] => some []
  | .raw c :: rest => (decodeToks rest).map (c :: ·)
  | .byte b :: rest =>
    if b < 0x80 then
      (decodeToks rest).map (Char.ofNat b :: ·)
    else if 0xC2 ≤ b ∧ b ≤ 0xDF then
      match rest with
      | .byte b1 :: rest' =>
        if contByte b1 then
          (decodeToks rest').map (Char.ofNat ((b - 0xC0) * 64 + (b1 - 0x80)) :: ·)
        else none
      | _ => none
    else if 0xE0 ≤ b ∧ b ≤ 0xEF then
      match rest with
      | .byte b1 :: .byte b2 :: rest' =>
        if contByte b1 ∧ contByte b2 ∧ (b = 0xE0 → 0xA0 ≤ b1) ∧ (b = 0xED → b1 ≤ 0x9F) then
          (decodeToks rest').map
            (Char.ofNat ((b - 0xE0) * 4096 + (b1 - 0x80) * 64 + (b2 - 0x80)) :: ·)
        else none
      | _ => none
    else if 0xF0 ≤ b ∧ b ≤ 0xF4 then
      match rest with
      | .byte b1 :: .byte b2 :: .byte b3 :: rest' =>
        if contByte b1 ∧ contByte b2 ∧ contByte b3 ∧
            (b = 0xF0 → 0x90 ≤ b1) ∧ (b = 0xF4 → b1 ≤ 0x8F) then
          (decodeToks rest').map
            (Char.ofNat
              ((b - 0xF0) * 0x40000 + (b1 - 0x80) * 4096 + (b2 - 0x80) * 64 + (b3 - 0x80)) :: ·)
        else none
      | _ => none
    else none

/-- Model of the JavaScript builtin `decodeURIComponent`, on character lists;
`none` models a thrown `URIError`. -/
def decodeURIComponentL (s : List Char) : Option (List Char) :=
  (uriTokens s).bind decodeToks

example : decodeURIComponentL "a%20b".data = some "a b".data := by decide
example : decodeURIComponentL "%C3%A9".data = some "é".data := by decide
example : decodeURIComponentL "%E2%82%AC".data = some "€".data := by decide
example : decodeURIComponentL "%F0%9D%84%9E".data = some "𝄞".data := by decide
example : decodeURIComponentL "a+b".data = some "a+b".data := by decide
example : decodeURIComponentL "%".data = none := by decide
example : decodeURIComponentL "%C3".data = none := by decide
example : decodeURIComponentL "%C0%80".data = none := by decide
example : decodeURIComponentL "%ED%A0%80".data = none := by decide

/-! ## The default codec (`HttpUrlEncodingCodec.ts`)

`standardEncoding(v)` is `encodeURIComponent(v)` post-processed by the global
regex replace `/%(\d[a-f0-9])/gi`, which maps a fixed table of escapes
(`%40 %3A %24 %2C %3B %2B %3D %3F %2F`) back to their literal characters
(`@ : $ , ; + = ? /`) and leaves any other match unchanged. -/

/-- Lookup in `STANDARD_ENCODING_REPLACEMENTS`, keyed by the exact two matched
characters (the JavaScript object lookup is case-sensitive even though the
regex itself is case-insensitive). -/
def stdRepl? (a b : Char) : Option Char :=
  if a = '4' ∧ b = '0' then some '@'
  else if a = '3' ∧ b = 'A' then some ':'
  else if a = '2' ∧ b = '4' then some '$'
  else if a = '2' ∧ b = 'C' then some ','
  else if a = '3' ∧ b = 'B' then some ';'
  else if a = '2' ∧ b = 'B' then some '+'
  else if a = '3' ∧ b = 'D' then some '='
  else if a = '3' ∧ b = 'F' then some '?'
  else if a = '2' ∧ b = 'F' then some '/'
  else none

/-- Test for the regex character class `[a-f0-9]` under the `i` flag. -/
def hexCI (c : Char) : Bool :=
  c.isDigit || ('a' ≤ c && c ≤ 'f') || ('A' ≤ c && c ≤ 'F')

/-- One left-to-right pass of `String.prototype.replace` with the global regex
`/%(\d[a-f0-9])/gi`: a match `%db` is rewritten via `stdRepl?` (kept verbatim
when the table has no entry) and scanning resumes after it; on a failed match
the scan advances one character. -/
def stdReplace : List Char → List Char
  | '%' :: a :: b :: rest =>
    if a.isDigit && hexCI b then
      (match stdRepl? a b with
       | some r => [r]
       | none => ['%', a, b]) ++ stdReplace rest
    else
      '%' :: stdReplace (a :: b :: rest)
  | c :: rest => c :: stdReplace rest
  | [] => []

/-- Model of `standardEncoding` from `HttpUrlEncodingCodec.ts`. Used by both
`encodeKey` and `encodeValue` of the default codec; `decodeKey` and
`decodeValue` are `decodeURIComponent`. -/
def standardEncodingL (v : List Char) : List Char :=
  stdReplace (encodeURIComponentL v)

example : standardEncodingL "a@b:c=d".data = "a@b:c=d".data := by decide
example : standardEncodingL "a&b %".data = "a%26b%20%25".data := by decide
example : standardEncodingL "+?/".data = "+?/".data := by decide

/-- Proof-side decomposition of `standardEncoding`: the post-processed form of
one percent-escaped byte — the table's literal character on a hit, the escape
itself otherwise. -/
def stdByte (b : Nat) : List Char :=
  match stdRepl? (hexUpper (b / 16)) (hexUpper (b % 16)) with
  | some r => [r]
  | none => pctEscape b

/-- Proof-side decomposition of `standardEncoding`: the output block of one
input character. -/
def stdChar (c : Char) : List Char :=
  if uriUnescaped c then [c] else (utf8Bytes c).flatMap stdByte

/-- The token the first decoding phase recovers from one post-processed byte
block. -/
def stdTok (b : Nat) : UriTok :=
  match stdRepl? (hexUpper (b / 16)) (hexUpper (b % 16)) with
  | some r => .raw r
  | none => .byte b

/-- The token run the first decoding phase recovers from one character's
`standardEncoding` block. -/
def charToks (c : Char) : List UriTok :=
  if uriUnescaped c then [.raw c] else (utf8Bytes c).map stdTok

/-! ## JavaScript `Map` as an insertion-ordered association list

`Map.prototype.set` keeps the position of an existing key and appends a new
key at the end; `delete` removes the entry; `keys()` iterates in that order. -/

/-- Lookup (`Map.prototype.get`); `none` models `undefined`. -/
def jsGet {α : Type} (m : List (List Char × α)) (k : List Char) : Option α :=
  match m with
  | [] => none
  | (k', v) :: rest => if k' = k then some v else jsGet rest k

/-- Insert or overwrite (`Map.prototype.set`), preserving key order. -/
def jsSet {α : Type} (m : List (List Char × α)) (k : List Char) (v : α) :
    List (List Char × α) :=
  match m with
  | [] => [(k, v)]
  | (k', v') :: rest => if k' = k then (k, v) :: rest else (k', v') :: jsSet rest k v

/-- Deletion (`Map.prototype.delete`). -/
def jsDel {α : Type} (m : List (List Char × α)) (k : List Char) :
    List (List Char × α) :=
  match m with
  | [] => []
  | (k', v') :: rest => if k' = k then rest else (k', v') :: jsDel rest k

/-- Key iteration order (`Map.prototype.keys`). -/
def jsKeys {α : Type} (m : List (List Char × α)) : List (List Char) :=
  m.map (·.1)

/-- Membership (`Map.prototype.has`). -/
def jsHas {α : Type} (m : List (List Char × α)) (k : List Char) : Bool :=
  (jsGet m k).isSome

/-! ## `paramParser` (`HttpParams.ts` lines 5-24) -/

/-- JavaScript `String.prototype.split` with a one-character separator:
`"".split(sep)` is `[""]`, separators at the ends produce empty pieces. -/
def jsSplitOn (sep : Char) : List Char → List (List Char)
  | [] => [[]]
  | c :: rest =>
    if c = sep then [] :: jsSplitOn sep rest
    else
      match jsSplitOn sep rest with
      | p :: ps => (c :: p) :: ps
      | [] => [[c]]

/-- The `rawParams.replace(/^\?/, "")` step: strip one leading `?`. -/
def stripLeadQ : List Char → List Char
  | '?' :: rest => rest
  | s => s

/-- The body of the `params.forEach` loop in `paramParser`: split one `param`
piece at its first `=` (`eqIdx == -1` gives the whole piece as key and an
empty value), decode both halves with the codec, and push the value onto the
key's list (`map.get(key) || []` followed by `push` and `set`). `none`
propagates a `URIError` thrown by `decodeURIComponent`. -/
def parsePiece (m : List (List Char × List (List Char))) (piece : List Char) :
    Option (List (List Char × List (List Char))) :=
  match piece.findIdx? (· = '=') with
  | none =>
    (decodeURIComponentL piece).map fun k =>
      jsSet m k ((jsGet m k).getD [] ++ [[]])
  | some eqIdx => do
    let k ← decodeURIComponentL (piece.take eqIdx)
    let v ← decodeURIComponentL (piece.drop (eqIdx + 1))
    some (jsSet m k ((jsGet m k).getD [] ++ [v]))

/-- Model of `paramParser(rawParams, codec)` with the default codec: the
resulting `Map` from parameter names to ordered value lists, or `none` when
decoding throws. -/
def paramParserL (raw : List Char) : Option (List (List Char × List (List Char))) :=
  if raw.length > 0 then
    (jsSplitOn '&' (stripLeadQ raw)).foldlM parsePiece []
  else
    some []

example : paramParserL "a=1&a=2&b".data =
    some [("a".data, ["1".data, "2".data]), ("b".data, [[]])] := by decide
example : paramParserL "?a=1".data = some [("a".data, ["1".data])] := by decide
example : paramParserL "".data = some [] := by decide
example : paramParserL "a%3Db=1".data = some [("a=b".data, ["1".data])] := by decide

/-! ## `HttpParams.toString` (lines 176-194), as a pure renderer

Serialization reads the resolved mapping: for each key in `Map` order the
encoded key is computed once and joined with each encoded value as
`key=value`; a key with an empty value list renders to the empty string and
is filtered out before the final `&`-join. -/

/-- JavaScript `Array.prototype.join("&")`. -/
def joinAmp : List (List Char) → List Char
  | [] => []
  | [p] => p
  | p :: ps => p ++ '&' :: joinAmp ps

/-- Rendering of one key's group: `values.map(v => eKey + "=" + enc(v)).join("&")`. -/
def renderGroup (k : List Char) (vs : List (List Char)) : List Char :=
  joinAmp (vs.map fun v => standardEncodingL k ++ '=' :: standardEncodingL v)

/-- Model of `HttpParams.toString()` over a resolved mapping. -/
def paramsToStringL (m : List (List Char × List (List Char))) : List Char :=
  joinAmp ((m.map fun kv => renderGroup kv.1 kv.2).filter (· ≠ []))

example : paramsToStringL [("a".data, ["1".data]), ("b".data, []),
    ("c".data, ["1".data, "2".data])] = "a=1&c=1&c=2".data := by decide
example : paramsToStringL [("a=b".data, ["1".data])] = "a=b=1".data := by decide

/-! ## The `HttpParams` container with an explicit array heap

`HttpParams.init` copies the source's `Map` bindings by reference
(`this.map.set(key, this.cloneFrom.map.get(key)!)`) and the update replay
then mutates those arrays in place (`base.push`, `base.splice`). To capture
this, JavaScript arrays of strings are modelled as handles into a heap of
arrays (`PWorld.arrays`) and `HttpParams` instances as handles into a list of
instance states (`PWorld.params`). Strings are `List Char` (`StrV`). -/

/-- A JavaScript string value. -/
abbrev StrV := List Char

/-- A JavaScript array of strings (the contents of one heap cell). -/
abbrev ArrV := List StrV

/-- The `op` tag of an `Update` record: `"a"` (append), `"d"` (delete) or
`"s"` (set). -/
inductive UpOp where
  | a
  | d
  | s
deriving DecidableEq, Repr

/-- One entry of the `updates` log of `HttpParams`. -/
structure Update where
  param : StrV
  value : Option StrV
  op : UpOp
deriving DecidableEq, Repr

/-- The private state of one `HttpParams` instance: `map` binds parameter
names to array handles (`null` until materialized), plus the pending-update
log and the clone source handle. -/
structure PState where
  map : Option (List (StrV × Nat))
  updates : Option (List Update)
  cloneFrom : Option Nat
deriving DecidableEq, Repr

/-- A world: the heap of string arrays and the allocated `HttpParams`
instances. -/
structure PWorld where
  arrays : List ArrV
  params : List PState
deriving DecidableEq, Repr

/-- Dereference an array handle. -/
def readArr (w : PWorld) (h : Nat) : ArrV :=
  (w.arrays[h]?).getD []

/-- Overwrite the contents of an array cell (in-place array mutation). -/
def writeArr (w : PWorld) (h : Nat) (l : ArrV) : PWorld :=
  { w with arrays := w.arrays.set h l }

/-- Allocate a fresh array cell, returning its handle. -/
def allocArr (w : PWorld) (l : ArrV) : PWorld × Nat :=
  ({ w with arrays := w.arrays ++ [l] }, w.arrays.length)

/-- Look up an `HttpParams` instance. -/
def getP (w : PWorld) (h : Nat) : Option PState :=
  w.params[h]?

/-- Replace the state of an `HttpParams` instance. -/
def setP (w : PWorld) (h : Nat) (st : PState) : PWorld :=
  { w with params := w.params.set h st }

/-- The current (possibly unmaterialized) `map` field of an instance, reading
`null` as the empty mapping. -/
def mapOfP (w : PWorld) (h : Nat) : List (StrV × Nat) :=
  ((getP w h).bind (·.map)).getD []

/-- Set only the `map` field of an instance. -/
def setMapP (w : PWorld) (h : Nat) (m : List (StrV × Nat)) : PWorld :=
  match getP w h with
  | none => w
  | some st => setP w h { st with map := some m }

/-- Allocate a fresh instance, returning its handle. -/
def addP (w : PWorld) (st : PState) : PWorld × Nat :=
  ({ w with params := w.params ++ [st] }, w.params.length)

/-- Allocation of one fresh array per entry of a name-to-values list, with the
bindings entered via `Map.prototype.set` — the shape shared by both
construction branches of `HttpParams` (`this.map!.set(key, ...)`). -/
def allocFold (w : PWorld) (rm : List (StrV × ArrV)) : PWorld × List (StrV × Nat) :=
  rm.foldl (fun acc kv =>
    ((allocArr acc.1 kv.2).1, jsSet acc.2 kv.1 (allocArr acc.1 kv.2).2)) (w, [])

/-- The `HttpParams` constructor (lines 58-74). The `!!` truthiness checks
mean an empty `fromString` counts as absent. The `fromString` branch runs
`paramParser` (a decoding failure is a thrown `URIError`); the `fromObject`
branch stores one array per key (the scalar-versus-array normalization of the
source is folded into the `ArrV` input). Both allocate fresh arrays. The
error string is the one thrown by the source. -/
def newParams (w : PWorld) (fromString : Option StrV)
    (fromObject : Option (List (StrV × ArrV))) : Except String (PWorld × Nat) :=
  if (fromString.getD []) ≠ [] then
    if fromObject.isSome then
      .error "Cannot specify both fromString and fromObject."
    else
      match paramParserL (fromString.getD []) with
      | none => .error "URIError"
      | some m =>
        let wb := allocFold w m
        .ok (addP wb.1 ⟨some wb.2, none, none⟩)
  else if fromObject.isSome then
    let wb := allocFold w (fromObject.getD [])
    .ok (addP wb.1 ⟨some wb.2, none, none⟩)
  else
    .ok (addP w ⟨none, none, none⟩)

/-- `HttpParams.clone` (lines 196-201): the new instance has a `null` map,
points at `this.cloneFrom || this`, and carries `this.updates` (copied) with
the given update(s) appended. -/
def cloneP (w : PWorld) (h : Nat) (upd : Option (List Update)) : PWorld × Nat :=
  let st := (getP w h).getD ⟨none, none, none⟩
  addP w
    { map := none,
      updates := some (match upd with
        | none => st.updates.getD []
        | some us => st.updates.getD [] ++ us),
      cloneFrom := some (st.cloneFrom.getD h) }

/-- `HttpParams.append`. -/
def appendOp (w : PWorld) (h : Nat) (k v : StrV) : PWorld × Nat :=
  cloneP w h (some [⟨k, some v, .a⟩])

/-- `HttpParams.set`. -/
def setOp (w : PWorld) (h : Nat) (k v : StrV) : PWorld × Nat :=
  cloneP w h (some [⟨k, some v, .s⟩])

/-- `HttpParams.delete` (the value is optional). -/
def deleteOp (w : PWorld) (h : Nat) (k : StrV) (v : Option StrV) : PWorld × Nat :=
  cloneP w h (some [⟨k, v, .d⟩])

/-- One step of the update-replay `switch` in `HttpParams.init` (lines
210-235), acting on instance `h`. For `"a"`/`"s"`, `base` is the existing
array (only for `"a"` on a present key, a pushed-to shared reference) or a
fresh array; for `"d"` with a value, the first occurrence is spliced out of
the array in place and the key is dropped when the array empties; for `"d"`
without a value the key is dropped. `valueToString(undefined)` is the string
`"undefined"`. -/
def applyUpdate (w : PWorld) (h : Nat) (u : Update) : PWorld :=
  match u.op with
  | .a | .s =>
    match (if u.op = .a then jsGet (mapOfP w h) u.param else none) with
    | some hb =>
      let w1 := writeArr w hb (readArr w hb ++ [u.value.getD "undefined".data])
      setMapP w1 h (jsSet (mapOfP w1 h) u.param hb)
    | none =>
      let (w1, nh) := allocArr w [u.value.getD "undefined".data]
      setMapP w1 h (jsSet (mapOfP w1 h) u.param nh)
  | .d =>
    match u.value with
    | some v =>
      match jsGet (mapOfP w h) u.param with
      | some hb =>
        let base := readArr w hb
        match base.findIdx? (· = v) with
        | some idx =>
          let base' := base.eraseIdx idx
          let w1 := writeArr w hb base'
          if base'.length > 0 then setMapP w1 h (jsSet (mapOfP w1 h) u.param hb)
          else setMapP w1 h (jsDel (mapOfP w1 h) u.param)
        | none =>
          if base.length > 0 then setMapP w h (jsSet (mapOfP w h) u.param hb)
          else setMapP w h (jsDel (mapOfP w h) u.param)
      | none => setMapP w h (jsDel (mapOfP w h) u.param)
    | none => setMapP w h (jsDel (mapOfP w h) u.param)

/-- Replay of a pending-update log, in recorded order. -/
def replayUpdates (w : PWorld) (h : Nat) (us : List Update) : PWorld :=
  us.foldl (fun w u => applyUpdate w h u) w

/-- `HttpParams.init` (lines 203-238), fuelled to express the recursion on
`cloneFrom` (in every reachable world `cloneFrom` points at a root, so a fuel
of the instance count is always enough). Ensures `map` is non-null, then for
a clone: resolves the source, copies the source's bindings by reference,
replays the pending updates, and clears `cloneFrom` and `updates`. -/
def initAux : Nat → PWorld → Nat → PWorld
  | 0, w, _ => w
  | fuel + 1, w, h =>
    match getP w h with
    | none => w
    | some st =>
      let w1 := if st.map.isNone then setP w h { st with map := some [] } else w
      match st.cloneFrom with
      | none => w1
      | some src =>
        let w2 := initAux fuel w1 src
        let w3 := setMapP w2 h
          ((mapOfP w2 src).foldl (fun m kv => jsSet m kv.1 kv.2) (mapOfP w2 h))
        let w4 := replayUpdates w3 h (st.updates.getD [])
        match getP w4 h with
        | none => w4
        | some st' => setP w4 h { st' with cloneFrom := none, updates := none }

/-- Resolution of instance `h`: `initAux` with enough fuel for any reachable
world. -/
def initP (w : PWorld) (h : Nat) : PWorld :=
  initAux w.params.length w h

/-- `HttpParams.has` (resolves first). -/
def hasP (w : PWorld) (h : Nat) (k : StrV) : PWorld × Bool :=
  let w' := initP w h
  (w', jsHas (mapOfP w' h) k)

/-- `HttpParams.getAll` (resolves first); the observable value list behind
the bound handle, `none` for an absent key. -/
def getAllP (w : PWorld) (h : Nat) (k : StrV) : PWorld × Option ArrV :=
  let w' := initP w h
  (w', (jsGet (mapOfP w' h) k).map (readArr w'))

/-- `HttpParams.keys` (resolves first). -/
def keysP (w : PWorld) (h : Nat) : PWorld × List StrV :=
  let w' := initP w h
  (w', jsKeys (mapOfP w' h))

/-- `HttpParams.toString` (resolves first, then renders the dereferenced
mapping with the default codec). -/
def toStringP (w : PWorld) (h : Nat) : PWorld × List Char :=
  let w' := initP w h
  (w', paramsToStringL ((mapOfP w' h).map fun kv => (kv.1, readArr w' kv.2)))

/-- The empty world. -/
def emptyW : PWorld := ⟨[], []⟩

/-! ## A pure (heap-free) reading of a single resolution

When one derived container is resolved in a world whose root is pristine (no
other member of the lineage has been resolved), the replay switch of `init`
acts like a pure transformation on a name-to-values mapping: the array
handles it reads and mutates are not aliased by anything already resolved.
`pureApply` is that pure transcription of the replay switch; the simulation
theorems below prove that the heap semantics of a single resolution agrees
with it. -/

/-- Pure transcription of one step of the update-replay `switch`. -/
def pureApply (m : List (StrV × ArrV)) (u : Update) : List (StrV × ArrV) :=
  match u.op with
  | .a | .s =>
    let base := ((if u.op = .a then jsGet m u.param else none)).getD []
    jsSet m u.param (base ++ [u.value.getD "undefined".data])
  | .d =>
    match u.value with
    | some v =>
      let base := (jsGet m u.param).getD []
      let base' := match base.findIdx? (· = v) with
        | some idx => base.eraseIdx idx
        | none => base
      if base'.length > 0 then jsSet m u.param base' else jsDel m u.param
    | none => jsDel m u.param

/-- Pure replay of an update log, in recorded order. -/
def pureReplay (m : List (StrV × ArrV)) (us : List Update) : List (StrV × ArrV) :=
  us.foldl pureApply m

/-- Pure reading of the `fromObject` construction. -/
def pureRoot (rm : List (StrV × ArrV)) : List (StrV × ArrV) :=
  rm.foldl (fun m kv => jsSet m kv.1 kv.2) []

/-- The observable mapping of an instance: its bindings with the arrays
dereferenced. -/
def derefMap (w : PWorld) (h : Nat) : List (StrV × ArrV) :=
  (mapOfP w h).map fun kv => (kv.1, readArr w kv.2)

/-- The simulation relation for a single resolution: instance `h` exists, its
observable mapping is `pm`, and its bound handles are in range and unaliased
(pairwise distinct). -/
def RelW (w : PWorld) (h : Nat) (pm : List (StrV × ArrV)) : Prop :=
  (getP w h).isSome
  ∧ derefMap w h = pm
  ∧ (∀ kv ∈ mapOfP w h, kv.2 < w.arrays.length)
  ∧ ((mapOfP w h).map (·.2)).Nodup

/-! ## The single-resolution scenario for the replay-semantics claims

A root built from a structured map `rm` and one derived container carrying
the update log `us` (by `clone`'s flattening, every reachable container has
exactly this shape); the derived container is then resolved by a read, in a
world where nothing else has been resolved. -/

/-- World with the root (`fromObject rm`) at handle 0 and the derived
container with update log `us` at handle 1 (the `fromObject` construction
never throws). -/
def dWorld (rm : List (StrV × ArrV)) (us : List Update) : PWorld × Nat :=
  match newParams emptyW none (some rm) with
  | .ok (w, r) => cloneP w r (some us)
  | .error _ => (emptyW, 0)

/-- `getAll` on the derived container, resolved in the pristine world. -/
def dGetAll (rm : List (StrV × ArrV)) (us : List Update) (k : StrV) : Option ArrV :=
  (getAllP (dWorld rm us).1 (dWorld rm us).2 k).2

/-- `has` on the derived container, resolved in the pristine world. -/
def dHas (rm : List (StrV × ArrV)) (us : List Update) (k : StrV) : Bool :=
  (hasP (dWorld rm us).1 (dWorld rm us).2 k).2

/-- The world just after `init` has copied the root's bindings (by reference)
into the derived container and before the update replay. -/
def startW (rm : List (StrV × ArrV)) (us : List Update) : PWorld :=
  ⟨(allocFold emptyW rm).1.arrays,
    [⟨some (allocFold emptyW rm).2, none, none⟩,
     ⟨some (allocFold emptyW rm).2, some us, some 0⟩]⟩

/-- The explicit form of `(dWorld rm us).1`: the pristine root at handle 0
and the unresolved derived container at handle 1. -/
def preW (rm : List (StrV × ArrV)) (us : List Update) : PWorld :=
  ⟨(allocFold emptyW rm).1.arrays,
    [⟨some (allocFold emptyW rm).2, none, none⟩, ⟨none, some us, some 0⟩]⟩

/-- The world after the derived container's update log has been replayed. -/
def replayW (rm : List (StrV × ArrV)) (us : List Update) : PWorld :=
  replayUpdates (startW rm us) 1 us

/-! ## `HttpRequest` URL assembly (`HttpRequest` constructor, lines 479-503) -/

/-- JavaScript `url.indexOf("?")`; `none` models `-1`. -/
def jsIndexOfQ (s : List Char) : Option Nat :=
  s.findIdx? (· = '?')

/-- The separator choice and concatenation of the `HttpRequest` constructor:
with a non-empty serialized parameter string, join with `?` when the URL has
no `?`, with `&` when the first `?` is before the last character, and with
nothing when the first `?` is the last character. -/
def computeUrlWithParams (url ser : List Char) : List Char :=
  if ser.length = 0 then url
  else
    match jsIndexOfQ url with
    | none => url ++ '?' :: ser
    | some qIdx => if qIdx < url.length - 1 then url ++ '&' :: ser else url ++ ser

/-- The `urlWithParams` computation of the `HttpRequest` constructor: absent
`params` give the raw URL (`this.params = new HttpParams()` left implicit
here); given `params` are cloned (`options.params?.clone()`) and serialized,
and the serialization is joined onto the URL. Performed once, at
construction. -/
def mkUrlWithParams (w : PWorld) (url : StrV) (pOpt : Option Nat) : PWorld × StrV :=
  match pOpt with
  | none => (w, url)
  | some p =>
    let (w1, ph) := cloneP w p none
    let (w2, ser) := toStringP w1 ph
    (w2, computeUrlWithParams url ser)

/-! ## The interceptor chain assembler (`HttpInterceptingManager`)

Handlers and interceptors are modelled as functions over an abstract request
type `ρ` and an abstract event-stream type `σ`; `HttpInterceptorHandler`
wraps an interceptor around a downstream handler. JavaScript object identity
(used by `remove`'s `indexOf`) is modelled by registering entries under `Nat`
identities resolved through an environment `env`. -/

/-- A handler: `handle(req)` returning an event stream. -/
def HandlerF (ρ σ : Type) := ρ → σ

/-- An interceptor: `intercept(req, next)`. -/
def InterceptorF (ρ σ : Type) := ρ → HandlerF ρ σ → σ

/-- An `InterceptorLike` entry: a concrete interceptor instance or a
zero-argument factory function. -/
inductive EntryF (ρ σ : Type) where
  | inst (i : InterceptorF ρ σ)
  | factory (f : Unit → InterceptorF ρ σ)

/-- The entry resolution in `_getInterceptorsResoved`: a function item is
invoked with no arguments, an instance is used directly. -/
def resolveEntry {ρ σ : Type} (e : EntryF ρ σ) : InterceptorF ρ σ :=
  match e with
  | .inst i => i
  | .factory f => f ()

/-- `HttpInterceptorHandler`: `handle(req)` is `interceptor.intercept(req, next)`. -/
def wrapHandler {ρ σ : Type} (i : InterceptorF ρ σ) (next : HandlerF ρ σ) : HandlerF ρ σ :=
  fun req => i req next

/-- The chain construction of `HttpInterceptingManager.handle`:
`reduceRight((next, interceptor) => new HttpInterceptorHandler(next, interceptor), adapter)`
over the resolved interceptor list. -/
def buildChain {ρ σ : Type} (env : Nat → EntryF ρ σ) (l : List Nat)
    (adapter : HandlerF ρ σ) : HandlerF ρ σ :=
  (l.map fun id => resolveEntry (env id)).foldr wrapHandler adapter

/-- The state of an `HttpInterceptingManager`: the registered entry
identities and the memoized chain (`null` when invalidated). -/
structure ManagerState (ρ σ : Type) where
  list : List Nat
  chain : Option (HandlerF ρ σ)

/-- The `HttpInterceptingManager` constructor: a copy (`slice()`) of the
given entries, no chain built yet. -/
def mkManager (ρ σ : Type) (interceptors : List Nat) : ManagerState ρ σ :=
  ⟨interceptors, none⟩

/-- `HttpInterceptingManager.handle(adapter, req)`: build and memoize the
chain if `this.chain === null`, then dispatch the request through the chain.
Returns the produced stream and the post-call state. -/
def handleM {ρ σ : Type} (env : Nat → EntryF ρ σ) (s : ManagerState ρ σ)
    (adapter : HandlerF ρ σ) (req : ρ) : σ × ManagerState ρ σ :=
  match s.chain with
  | some c => (c req, s)
  | none =>
    let c := buildChain env s.list adapter
    (c req, { s with chain := some c })

/-- `HttpInterceptingManager.add`: push the entry and invalidate the chain. -/
def addM {ρ σ : Type} (s : ManagerState ρ σ) (e : Nat) : ManagerState ρ σ :=
  { s with list := s.list ++ [e], chain := none }

/-- JavaScript `Array.prototype.splice(index, 1)`: a negative index counts
from the end (clamped at 0), an index past the end removes nothing. -/
def jsSpliceRemove1 {α : Type} (l : List α) (i : Int) : List α :=
  let len : Int := l.length
  let start : Nat := (if i < 0 then max (len + i) 0 else min i len).toNat
  l.take start ++ l.drop (start + 1)

/-- `HttpInterceptingManager.removeByIndex`: splice out the index and
invalidate the chain. -/
def removeByIndexM {ρ σ : Type} (s : ManagerState ρ σ) (i : Int) : ManagerState ρ σ :=
  { s with list := jsSpliceRemove1 s.list i, chain := none }

/-- `HttpInterceptingManager.remove`: `indexOf` under reference identity,
splice when found, and invalidate the chain in either case. -/
def removeM {ρ σ : Type} (s : ManagerState ρ σ) (e : Nat) : ManagerState ρ σ :=
  { s with
    list := match s.list.findIdx? (· = e) with
      | some idx => s.list.take idx ++ s.list.drop (idx + 1)
      | none => s.list,
    chain := none }

/-! ## Event streams and body observation (`HttpClient.request`)

A produced stream is a list of emitted items followed by a terminal signal:
completion (`err = none`) or an error (`err = some message`). `rxjs`
`filter` keeps the terminal; `map` with a throwing projection truncates at
the first throw and errors the stream. -/

/-- A response body value, by its JavaScript runtime type. -/
inductive BodyV where
  | nullB
  | arrayBuf (bytes : List Nat)
  | blobB (btype : StrV) (bytes : List Nat)
  | strB (s : StrV)
  | jsonB (tag : Nat)
deriving DecidableEq, Repr

/-- A terminal `HttpResponse` snapshot (only the body matters here). -/
structure RespM where
  body : BodyV
deriving DecidableEq, Repr

/-- One lifecycle event of a request. -/
inductive HttpEventM where
  | progress (loaded : Nat)
  | response (res : RespM)
deriving DecidableEq, Repr

/-- An observed event stream. -/
structure StreamM (α : Type) where
  events : List α
  err : Option String
deriving DecidableEq, Repr

/-- The `res$` projection: `events$.pipe(filter(event => event instanceof HttpResponse))`. -/
def filterRes (s : StreamM HttpEventM) : StreamM RespM :=
  ⟨s.events.filterMap fun e =>
      match e with
      | .response r => some r
      | .progress _ => none,
    s.err⟩

/-- `map` with a projection that may throw: events are transformed until the
first throw, which errors the stream then and there. -/
def mapExceptList {α β : Type} (f : α → Except String β) :
    List α → Option String → StreamM β
  | [], e => ⟨[], e⟩
  | x :: xs, e =>
    match f x with
    | .ok y =>
      let s := mapExceptList f xs e
      ⟨y :: s.events, s.err⟩
    | .error m => ⟨[], some m⟩

/-- `map` over a stream, with throwing modelled as a stream error. -/
def mapExceptStream {α β : Type} (f : α → Except String β) (s : StreamM α) : StreamM β :=
  mapExceptList f s.events s.err

/-- `body instanceof ArrayBuffer`. -/
def isArrayBufferB : BodyV → Bool
  | .arrayBuf _ => true
  | _ => false

/-- `body instanceof Blob`. -/
def isBlobB : BodyV → Bool
  | .blobB _ _ => true
  | _ => false

/-- `typeof body === "string"`. -/
def isStringB : BodyV → Bool
  | .strB _ => true
  | _ => false

/-- `body === null`. -/
def isNullB : BodyV → Bool
  | .nullB => true
  | _ => false

/-- The `responseType` tag of a request. -/
inductive RespTypeM where
  | json
  | text
  | blobT
  | arraybuffer
deriving DecidableEq, Repr

/-- The body projection of the `observe === "body"` branch of
`HttpClient.request` (lines 176-212): per `responseType`, a non-null body of
the wrong runtime type throws a shape error inside `map` (so it surfaces as
a stream failure); `json` performs no validation. -/
def validateBody (rt : RespTypeM) (r : RespM) : Except String BodyV :=
  match rt with
  | .arraybuffer =>
    if ¬ isNullB r.body ∧ ¬ isArrayBufferB r.body then
      .error "Response is not an ArrayBuffer."
    else .ok r.body
  | .blobT =>
    if ¬ isNullB r.body ∧ ¬ isBlobB r.body then
      .error "Response is not a Blob."
    else .ok r.body
  | .text =>
    if ¬ isNullB r.body ∧ ¬ isStringB r.body then
      .error "Response is not a string."
    else .ok r.body
  | .json => .ok r.body

/-- The `observe: "body"` result stream of `HttpClient.request`: filter the
events to responses, then project each response to its (validated) body. -/
def observeBody (rt : RespTypeM) (s : StreamM HttpEventM) : StreamM BodyV :=
  mapExceptStream (validateBody rt) (filterRes s)

/-! ## Concrete interceptors for dispatch-order scenarios

Streams are instantiated with `List String` traces: each interceptor logs
its name before forwarding, the transport logs `"T"`. -/

/-- A logging interceptor that forwards the request unchanged. -/
def logI (name : String) : InterceptorF Nat (List String) :=
  fun req next => name :: next req

/-- A short-circuiting interceptor: fabricates a stream without forwarding. -/
def shortI : InterceptorF Nat (List String) :=
  fun _ _ => ["short"]

/-- A logging terminal transport. -/
def adT : HandlerF Nat (List String) :=
  fun _ => ["T"]

/-- A second transport, to observe which terminal a cached chain captured. -/
def adT2 : HandlerF Nat (List String) :=
  fun _ => ["T2"]

/-- An entry environment: identity 0 is interceptor `A` (an instance),
identity 1 is a factory producing interceptor `B`, identity 2 short-circuits,
anything else logs its number. -/
def envAB : Nat → EntryF Nat (List String)
  | 0 => .inst (logI "A")
  | 1 => .factory fun _ => logI "B"
  | 2 => .inst shortI
  | n => .inst (logI (toString n))

/-! ## Concrete container scenarios

A root parsed from `"a=1"`, a clone obtained by `append("a", "2")`, and a
further clone obtained by `append("a", "3")` (a linear lineage: the third
container also points directly at the root because `clone` flattens
`cloneFrom`). -/

/-- World with the root container `new HttpParams({fromString: "a=1"})` at
handle 0. -/
def rootW : PWorld × Nat :=
  (newParams emptyW (some "a=1".data) none).toOption.getD (emptyW, 0)

/-- `rootW` extended with the clone `root.append("a", "2")` at handle 1. -/
def childW : PWorld × Nat :=
  appendOp rootW.1 rootW.2 "a".data "2".data

/-- `childW` extended with the clone `child.append("a", "3")` at handle 2. -/
def grandchildW : PWorld × Nat :=
  appendOp childW.1 childW.2 "a".data "3".data

/-- World with the root container `new HttpParams({fromObject: {z: 2}})` at
handle 0 (the number `2` is coerced by `valueToString`/`encodeURIComponent`
to the string `"2"`). -/
def objZ : PWorld × Nat :=
  (newParams emptyW none (some [("z".data, ["2".data])])).toOption.getD (emptyW, 0)

/-! # Theorems -/

/-- C2: the chain built on first dispatch is the right fold of the registered
interceptor list (with factory entries resolved to instances at build time)
onto the terminal transport: dispatching through the fresh manager runs
`buildChain`, the chain for `I1 :: rest` hands `I1` the request first
together with the composed handler for the rest (so `I1` alone decides
whether to forward), and concretely, for entries `[A, B]` (with `B` supplied
as a factory) over transport `T` the trace is `A` before `B` before `T`,
while a non-forwarding interceptor short-circuits the rest of the chain. -/
theorem C2_dispatch_is_right_fold_in_registration_order :
    (∀ (ρ σ : Type) (env : Nat → EntryF ρ σ) (l : List Nat)
        (adapter : HandlerF ρ σ) (req : ρ),
      (handleM env (mkManager ρ σ l) adapter req).1 = buildChain env l adapter req)
    ∧ (∀ (ρ σ : Type) (env : Nat → EntryF ρ σ) (e : Nat) (rest : List Nat)
        (adapter : HandlerF ρ σ) (req : ρ),
      buildChain env (e :: rest) adapter req
        = resolveEntry (env e) req (buildChain env rest adapter))
    ∧ (handleM envAB (mkManager Nat (List String) [0, 1]) adT 7).1 = ["A", "B", "T"]
    ∧ (handleM envAB (mkManager Nat (List String) [2, 0]) adT 7).1 = ["short"] :=
  ⟨fun _ _ _ _ _ _ => rfl, fun _ _ _ _ _ _ _ => rfl, rfl, rfl⟩

/-- C4: every structural edit (`add`, `remove`, `removeByIndex`) discards the
cached chain; `add` appends the entry; `remove` of an entry not present (by
reference identity) leaves the list unchanged; a dispatch issued after an
`add` is served by a chain rebuilt from the new list; and for a fresh
manager, the value returned by a dispatch before the edit is the one computed
from the old list (a pure value the edit cannot affect), while the dispatch
after the edit uses the extended list. -/
theorem C4_structural_edits_invalidate_cache :
    (∀ (ρ σ : Type) (s : ManagerState ρ σ) (e : Nat),
      (addM s e).chain = none ∧ (addM s e).list = s.list ++ [e])
    ∧ (∀ (ρ σ : Type) (s : ManagerState ρ σ) (i : Int), (removeByIndexM s i).chain = none)
    ∧ (∀ (ρ σ : Type) (s : ManagerState ρ σ) (e : Nat), (removeM s e).chain = none)
    ∧ (∀ (ρ σ : Type) (s : ManagerState ρ σ) (e : Nat),
        e ∉ s.list → (removeM s e).list = s.list)
    ∧ (∀ (ρ σ : Type) (env : Nat → EntryF ρ σ) (s : ManagerState ρ σ) (e : Nat)
        (adapter : HandlerF ρ σ) (req : ρ),
      (handleM env (addM s e) adapter req).1 = buildChain env (s.list ++ [e]) adapter req)
    ∧ (∀ (ρ σ : Type) (env : Nat → EntryF ρ σ) (l : List Nat)
        (adapter : HandlerF ρ σ) (req req' : ρ) (e : Nat),
      (handleM env (mkManager ρ σ l) adapter req).1 = buildChain env l adapter req
      ∧ (handleM env (addM (handleM env (mkManager ρ σ l) adapter req).2 e) adapter req').1
          = buildChain env (l ++ [e]) adapter req') := by
  refine ⟨fun _ _ _ _ => ⟨rfl, rfl⟩, fun _ _ _ _ => rfl, fun _ _ _ _ => rfl,
    ?_, fun _ _ _ _ _ _ _ => rfl, fun _ _ _ _ _ _ _ _ => ⟨rfl, rfl⟩⟩
  intro ρ σ s e he
  show (match s.list.findIdx? (· = e) with
    | some idx => s.list.take idx ++ s.list.drop (idx + 1)
    | none => s.list) = s.list
  rw [List.findIdx?_eq_none_iff.mpr]
  intro x hx
  simp only [decide_eq_false_iff_not]
  rintro rfl
  exact he hx

/-- Witness for C4: removing the absent entry 9 from a manager registered
with `[5]` leaves the list `[5]`. -/
theorem C4_structural_edits_invalidate_cache_witness :
    (9 : Nat) ∉ [5] ∧ (removeM (mkManager Nat Nat [5]) 9).list = [5] :=
  ⟨by decide,
    C4_structural_edits_invalidate_cache.2.2.2.1 Nat Nat (mkManager Nat Nat [5]) 9 (by decide)⟩

/-- C10: once a dispatch has built and memoized the chain, a later `handle`
call is answered entirely by the cached chain — its `adapter` argument is
ignored and the state is untouched; the first dispatch on a fresh manager
memoizes exactly the right-fold chain over the adapter it was given;
concretely, a second dispatch passing a different transport `T2` still ends
at the captured `T`, and only after a list mutation (here `removeByIndex 0`)
does the next call's adapter become the terminal handler. -/
theorem C10_later_handle_calls_use_cached_terminal :
    (∀ (ρ σ : Type) (env : Nat → EntryF ρ σ) (s : ManagerState ρ σ)
        (c adapter : HandlerF ρ σ) (req : ρ),
      s.chain = some c → handleM env s adapter req = (c req, s))
    ∧ (∀ (ρ σ : Type) (env : Nat → EntryF ρ σ) (l : List Nat)
        (adapter adapter' : HandlerF ρ σ) (req req' : ρ),
      (handleM env (mkManager ρ σ l) adapter req).2
          = ⟨l, some (buildChain env l adapter)⟩
      ∧ handleM env (handleM env (mkManager ρ σ l) adapter req).2 adapter' req'
          = (buildChain env l adapter req', (handleM env (mkManager ρ σ l) adapter req).2))
    ∧ (handleM envAB (handleM envAB (mkManager Nat (List String) [0, 1]) adT 7).2 adT2 5).1
        = ["A", "B", "T"]
    ∧ (handleM envAB
        (removeByIndexM (handleM envAB (mkManager Nat (List String) [0, 1]) adT 7).2 0)
        adT2 5).1 = ["B", "T2"] := by
  refine ⟨?_, fun _ _ _ _ _ _ _ _ => ⟨rfl, rfl⟩, rfl, rfl⟩
  intro ρ σ env s c adapter req h
  obtain ⟨list, chain⟩ := s
  cases h
  rfl

/-- Witness for C10: a manager whose cache holds the transport `adT` answers
a `handle` call passing `adT2` with `adT`'s stream and an unchanged state. -/
theorem C10_later_handle_calls_use_cached_terminal_witness :
    (⟨[], some adT⟩ : ManagerState Nat (List String)).chain = some adT
    ∧ handleM envAB ⟨[], some adT⟩ adT2 3 = (["T"], ⟨[], some adT⟩) :=
  ⟨rfl, C10_later_handle_calls_use_cached_terminal.1 Nat (List String) envAB
    ⟨[], some adT⟩ adT adT2 3 rfl⟩

/-- C1 (code-bug evidence): the claim says `append` never changes the
observable mapping of any ancestor, even after the derived container is
resolved. In the code, `init` copies the root's value arrays by reference and
the `"a"` replay step pushes onto that shared array, so for the root parsed
from `"a=1"` and its clone `append("a", "2")`: the root observably maps `a`
to `["1"]` before the clone resolves, but to `["1", "2"]` after a read of the
clone resolves it — the ancestor's mapping changed. -/
theorem C1_resolve_of_clone_mutates_ancestor :
    (newParams emptyW (some "a=1".data) none).isOk = true
    ∧ (getAllP rootW.1 rootW.2 "a".data).2 = some ["1".data]
    ∧ (getAllP childW.1 childW.2 "a".data).2 = some ["1".data, "2".data]
    ∧ (getAllP (getAllP childW.1 childW.2 "a".data).1 rootW.2 "a".data).2
        = some ["1".data, "2".data] := by
  decide

/-- C9 (counterexample): the claim says constructing with both a raw-string
source and a structured-map source simultaneously raises the configuration
error. The constructor tests the options for truthiness, so an empty
`fromString` together with a `fromObject` passes both checks and constructs
successfully. -/
theorem C9_counterexample_empty_fromString_with_fromObject_ok :
    (newParams emptyW (some []) (some [("a".data, ["1".data])])).isOk = true := by
  decide

/-- C9 (amended): constructing with a truthy (non-empty) `fromString` and a
present `fromObject` raises the configuration error synchronously, in the
constructor itself; and that error arises in no other situation — in
particular construction with only one source, or neither, never raises it
(an ill-formed raw string raises the distinct `URIError` instead). -/
theorem C9_both_sources_is_synchronous_constructor_error :
    (∀ (w : PWorld) (s : StrV) (fo : List (StrV × ArrV)), s ≠ [] →
      newParams w (some s) (some fo) = .error "Cannot specify both fromString and fromObject.")
    ∧ (∀ (w : PWorld) (fs : Option StrV) (fo : Option (List (StrV × ArrV))),
      newParams w fs fo = .error "Cannot specify both fromString and fromObject." →
        fs.getD [] ≠ [] ∧ fo.isSome = true) := by
  constructor
  · intro w s fo hs
    simp [newParams, hs]
  · intro w fs fo h
    by_cases h1 : fs.getD [] ≠ []
    · refine ⟨h1, ?_⟩
      by_cases h2 : fo.isSome
      · exact h2
      · exfalso
        rw [newParams, if_pos h1, if_neg (by simp_all)] at h
        revert h
        cases paramParserL (fs.getD []) <;> simp
    · exfalso
      rw [newParams, if_neg h1] at h
      revert h
      by_cases h2 : fo.isSome <;> simp [h2]

/-- Witness for C9: with raw string `"x"` and an object source, construction
fails with the configuration error. -/
theorem C9_both_sources_is_synchronous_constructor_error_witness :
    "x".data ≠ [] ∧
      newParams emptyW (some "x".data) (some [("a".data, ["1".data])])
        = .error "Cannot specify both fromString and fromObject." :=
  ⟨by decide, C9_both_sources_is_synchronous_constructor_error.1 emptyW "x".data
    [("a".data, ["1".data])] (by decide)⟩

/-- A `map` whose projection never throws is a plain `map` on the events and
keeps the terminal. -/
theorem mapExceptList_ok {α β : Type} (f : α → β) (l : List α) (e : Option String) :
    mapExceptList (fun a => .ok (f a)) l e = ⟨l.map f, e⟩ := by
  induction l with
  | nil => rfl
  | cons x xs ih => simp [mapExceptList, ih]

/-- C8 (counterexample): the claim says a terminal response whose body is not
an `ArrayBuffer` fails the `arraybuffer`/body-observed stream. A `null` body
is not an `ArrayBuffer`, yet the `res.body !== null` guard skips validation:
the stream emits `null` and completes without error. -/
theorem C8_counterexample_null_body_is_not_validated :
    isArrayBufferB .nullB = false
    ∧ observeBody .arraybuffer ⟨[.response ⟨.nullB⟩], none⟩ = ⟨[.nullB], none⟩ := by
  decide

/-- C8 (amended): a body-type/response-type mismatch is reported as a failure
on the observed stream (the projection itself is a total stream
transformation, so nothing is thrown at call time): when the first response
event carries a non-null body that is not an `ArrayBuffer`, the
`arraybuffer`/body stream emits nothing and terminates with the shape error —
likewise for `blob` with a non-Blob body and `text` with a non-string body —
while the `json` response type performs no validation: it projects every
response body and preserves the upstream terminal. -/
theorem C8_body_shape_mismatch_fails_observed_stream :
    (∀ (s : StreamM HttpEventM) (r : RespM),
      (filterRes s).events.head? = some r →
      isNullB r.body = false → isArrayBufferB r.body = false →
        observeBody .arraybuffer s = ⟨[], some "Response is not an ArrayBuffer."⟩)
    ∧ (∀ (s : StreamM HttpEventM) (r : RespM),
      (filterRes s).events.head? = some r →
      isNullB r.body = false → isBlobB r.body = false →
        observeBody .blobT s = ⟨[], some "Response is not a Blob."⟩)
    ∧ (∀ (s : StreamM HttpEventM) (r : RespM),
      (filterRes s).events.head? = some r →
      isNullB r.body = false → isStringB r.body = false →
        observeBody .text s = ⟨[], some "Response is not a string."⟩)
    ∧ (∀ (s : StreamM HttpEventM),
      observeBody .json s = ⟨(filterRes s).events.map (·.body), s.err⟩) := by
  refine ⟨?_, ?_, ?_, ?_⟩
  case _ | _ | _ =>
    intro s r h hn hw
    unfold observeBody mapExceptStream
    cases hev : (filterRes s).events with
    | nil => rw [hev] at h; simp at h
    | cons a tail =>
      rw [hev] at h
      simp only [List.head?_cons, Option.some.injEq] at h
      subst h
      simp [mapExceptList, validateBody, hn, hw]
  case _ =>
    intro s
    unfold observeBody mapExceptStream
    have : validateBody .json = fun r => .ok r.body := rfl
    rw [this, mapExceptList_ok]
    rfl

/-- Witness for C8: a stream with one progress event and one string-bodied
response, observed in `arraybuffer`/body mode, errors with the shape
message. -/
theorem C8_body_shape_mismatch_fails_observed_stream_witness :
    (filterRes ⟨[.progress 1, .response ⟨.strB "x".data⟩], none⟩).events.head?
        = some ⟨.strB "x".data⟩
    ∧ isNullB (BodyV.strB "x".data) = false
    ∧ isArrayBufferB (BodyV.strB "x".data) = false
    ∧ observeBody .arraybuffer ⟨[.progress 1, .response ⟨.strB "x".data⟩], none⟩
        = ⟨[], some "Response is not an ArrayBuffer."⟩ :=
  ⟨by decide, by decide, by decide,
    C8_body_shape_mismatch_fails_observed_stream.1
      ⟨[.progress 1, .response ⟨.strB "x".data⟩], none⟩ ⟨.strB "x".data⟩
      (by decide) (by decide) (by decide)⟩

/-- The first `?` found by `indexOf` is at or before any given occurrence. -/
theorem findIdxQ_first : ∀ (l : List Char) (i : Nat), l[i]? = some '?' →
    ∃ j, jsIndexOfQ l = some j ∧ j ≤ i ∧ l[j]? = some '?'
  | [], i, h => by simp at h
  | c :: rest, i, h => by
    by_cases hc : c = '?'
    · exact ⟨0, by simp [jsIndexOfQ, List.findIdx?_cons, hc], Nat.zero_le _, by simp [hc]⟩
    · match i with
      | 0 =>
        simp only [List.getElem?_cons_zero, Option.some.injEq] at h
        exact absurd h hc
      | i' + 1 =>
        have h' : rest[i']? = some '?' := by simpa using h
        obtain ⟨j, hj, hji, hjq⟩ := findIdxQ_first rest i' h'
        refine ⟨j + 1, ?_, by omega, by simpa using hjq⟩
        rw [jsIndexOfQ, List.findIdx?_cons, if_neg (by simp [hc]), List.findIdx?_succ]
        rw [jsIndexOfQ] at hj
        simp [hj]

/-! ### State-tracking lemmas for `HttpParams.init` -/

/-- Overwriting an instance makes it readable back. -/
theorem getP_setP_self {w : PWorld} {h : Nat} (st : PState) (hh : h < w.params.length) :
    getP (setP w h st) h = some st :=
  List.getElem?_set_self hh

/-- Overwriting one instance leaves the others unchanged. -/
theorem getP_setP_ne (w : PWorld) {h h' : Nat} (st : PState) (hne : h ≠ h') :
    getP (setP w h st) h' = getP w h' :=
  List.getElem?_set_ne hne

/-- Array writes do not touch the instances. -/
theorem getP_writeArr (w : PWorld) (hb : Nat) (l : ArrV) (h : Nat) :
    getP (writeArr w hb l) h = getP w h := rfl

/-- `setMapP` preserves the instance count. -/
theorem params_setMapP (w : PWorld) (h : Nat) (m : List (StrV × Nat)) :
    (setMapP w h m).params.length = w.params.length := by
  unfold setMapP
  cases getP w h <;> simp [setP]

/-- One replay step preserves the instance count. -/
theorem params_applyUpdate (w : PWorld) (h : Nat) (u : Update) :
    (applyUpdate w h u).params.length = w.params.length := by
  unfold applyUpdate
  rcases u with ⟨p, v, op⟩
  cases op <;> dsimp only
  all_goals repeat' split
  all_goals first
  | rfl
  | simp [params_setMapP, writeArr, allocArr]

/-- Update replay preserves the instance count. -/
theorem params_replay (h : Nat) (us : List Update) : ∀ w : PWorld,
    (replayUpdates w h us).params.length = w.params.length := by
  induction us with
  | nil => intro w; rfl
  | cons u us ih =>
    intro w
    show (replayUpdates (applyUpdate w h u) h us).params.length = _
    exact (ih _).trans (params_applyUpdate w h u)

/-- `initAux` preserves the instance count. -/
theorem params_initAux : ∀ (f : Nat) (w : PWorld) (h : Nat),
    (initAux f w h).params.length = w.params.length := by
  intro f
  induction f with
  | zero => intro w h; rfl
  | succ f ih =>
    intro w h
    unfold initAux
    cases hg : getP w h with
    | none => simp [hg]
    | some st =>
      simp only [hg]
      cases hcf : st.cloneFrom with
      | none => by_cases hm : st.map.isNone <;> simp [hcf, hm, setP]
      | some src =>
        by_cases hm : st.map.isNone <;>
          simp only [hcf, hm, Bool.false_eq_true, if_true, if_false] <;>
          split <;>
          simp [params_replay, params_setMapP, ih, setP]

/-- An instance readable at a handle bounds the handle. -/
theorem getP_lt {w : PWorld} {h : Nat} {st : PState} (hg : getP w h = some st) :
    h < w.params.length := by
  by_contra hcon
  rw [getP, List.getElem?_eq_none (by omega)] at hg
  exact Option.noConfusion hg

/-- `setMapP` materializes the map and preserves the other fields. -/
theorem setMapP_state {w : PWorld} {h : Nat} {st : PState}
    (hg : getP w h = some st) (m : List (StrV × Nat)) :
    getP (setMapP w h m) h = some ⟨some m, st.updates, st.cloneFrom⟩ := by
  unfold setMapP
  rw [hg]
  exact getP_setP_self _ (getP_lt hg)

/-- One replay step keeps `updates` and `cloneFrom` and leaves a materialized
map. -/
theorem applyUpdate_state {w : PWorld} {h : Nat} {st : PState}
    (hg : getP w h = some st) (u : Update) :
    ∃ m, getP (applyUpdate w h u) h = some ⟨some m, st.updates, st.cloneFrom⟩ := by
  unfold applyUpdate
  rcases u with ⟨p, v, op⟩
  cases op <;> dsimp only
  all_goals repeat' split
  all_goals exact ⟨_, setMapP_state (by exact hg) _⟩

/-- Replay keeps `updates` and `cloneFrom` and leaves a materialized map. -/
theorem replay_state {h : Nat} (us : List Update) : ∀ {w : PWorld} {st : PState},
    getP w h = some st → st.map.isSome →
    ∃ m, getP (replayUpdates w h us) h = some ⟨some m, st.updates, st.cloneFrom⟩ := by
  induction us with
  | nil =>
    intro w st hg hm
    obtain ⟨m, hmm⟩ := Option.isSome_iff_exists.mp hm
    exact ⟨m, by rw [replayUpdates]; simpa [← hmm] using hg⟩
  | cons u us ih =>
    intro w st hg hm
    obtain ⟨m, hg'⟩ := applyUpdate_state hg u
    obtain ⟨m', hg''⟩ := ih hg' rfl
    exact ⟨m', hg''⟩

/-- With at least one unit of fuel, `init` of a root container (no
`cloneFrom`) only materializes a `null` map. -/
theorem initAux_root {f : Nat} {w : PWorld} {src : Nat} {sts : PState}
    (hg : getP w src = some sts) (hcf : sts.cloneFrom = none) (hf : 1 ≤ f) :
    initAux f w src = if sts.map.isNone then setP w src { sts with map := some [] } else w := by
  obtain ⟨f', rfl⟩ : ∃ f', f = f' + 1 := ⟨f - 1, by omega⟩
  unfold initAux
  rw [hg]
  simp [hcf]

/-- Resolving an instance whose `cloneFrom` (if any) points at a root leaves
it with no `cloneFrom` and a materialized map. -/
theorem initP_resolves {w : PWorld} {h : Nat} {st : PState}
    (hg : getP w h = some st)
    (hshape : ∀ src, st.cloneFrom = some src →
      ∃ sts, getP w src = some sts ∧ sts.cloneFrom = none) :
    ∃ st', getP (initP w h) h = some st' ∧ st'.cloneFrom = none ∧ st'.map.isSome := by
  have hl : h < w.params.length := getP_lt hg
  obtain ⟨f, hf⟩ : ∃ f, w.params.length = f + 1 := ⟨w.params.length - 1, by omega⟩
  rw [initP, hf]
  unfold initAux
  rw [hg]
  cases hcf : st.cloneFrom with
  | none =>
    simp only [hcf]
    by_cases hm : st.map.isNone
    · rw [if_pos hm]
      exact ⟨_, getP_setP_self _ hl, rfl, rfl⟩
    · rw [if_neg hm]
      refine ⟨st, hg, hcf, ?_⟩
      rw [Option.isSome_iff_ne_none]
      intro hnone
      exact hm (by simp [hnone])
  | some src =>
    simp only [hcf]
    obtain ⟨sts, hgs, hcfs⟩ := hshape src hcf
    have hsrcne : src ≠ h := by
      rintro rfl
      rw [hg] at hgs
      cases hgs
      rw [hcf] at hcfs
      exact Option.noConfusion hcfs
    have hls : src < w.params.length := getP_lt hgs
    have hf1 : 1 ≤ f := by omega
    have h1 : getP (if st.map.isNone = true
          then setP w h ⟨some [], st.updates, some src⟩ else w) h
        = some (if st.map.isNone = true then ⟨some [], st.updates, some src⟩ else st) := by
      by_cases hm : st.map.isNone
      · rw [if_pos hm, if_pos hm]
        exact getP_setP_self _ hl
      · rw [if_neg hm, if_neg hm]
        exact hg
    have h1s : getP (if st.map.isNone = true
          then setP w h ⟨some [], st.updates, some src⟩ else w) src
        = some sts := by
      by_cases hm : st.map.isNone
      · rw [if_pos hm, getP_setP_ne _ _ (fun he => hsrcne he.symm)]
        exact hgs
      · rw [if_neg hm]
        exact hgs
    rw [initAux_root h1s hcfs hf1]
    have h2 : getP (if sts.map.isNone = true then
          setP (if st.map.isNone = true then setP w h ⟨some [], st.updates, some src⟩ else w) src
            { sts with map := some [] }
        else (if st.map.isNone = true then setP w h ⟨some [], st.updates, some src⟩ else w)) h
        = some (if st.map.isNone = true then ⟨some [], st.updates, some src⟩ else st) := by
      by_cases hms : sts.map.isNone
      · rw [if_pos hms, getP_setP_ne _ _ hsrcne]
        exact h1
      · rw [if_neg hms]
        exact h1
    set w2 := (if sts.map.isNone = true then
        setP (if st.map.isNone = true then setP w h ⟨some [], st.updates, some src⟩ else w) src
          { sts with map := some [] }
      else (if st.map.isNone = true then setP w h ⟨some [], st.updates, some src⟩ else w))
      with hw2def
    have h3g := setMapP_state h2
      ((mapOfP w2 src).foldl (fun m kv => jsSet m kv.1 kv.2) (mapOfP w2 h))
    obtain ⟨m4, h4g⟩ := replay_state (st.updates.getD []) h3g rfl
    rw [h4g]
    refine ⟨_, getP_setP_self _ ?_, rfl, rfl⟩
    rw [params_replay, params_setMapP, hw2def]
    by_cases hms : sts.map.isNone <;> by_cases hm : st.map.isNone <;>
      simpa [hms, hm, setP] using hl

/-- C5 (counterexample): for the linear lineage root (`"a=1"`) →
`append("a","2")` → `append("a","3")`, resolving the last container directly
yields `a ↦ ["1","2","3"]`, but resolving it after the middle container has
been resolved yields `a ↦ ["1","2","2","3"]`: the final mapping depends on
which other members of the chain were resolved first, because the middle
resolve pushed onto the root's shared array. -/
theorem C5_counterexample_resolution_order_changes_mapping :
    (getAllP grandchildW.1 grandchildW.2 "a".data).2
        = some ["1".data, "2".data, "3".data]
    ∧ (getAllP (getAllP grandchildW.1 childW.2 "a".data).1 grandchildW.2 "a".data).2
        = some ["1".data, "2".data, "2".data, "3".data] := by
  decide

/-- C5 (amended): resolution is idempotent and runs at most once per
instance: for any instance whose `cloneFrom` (if any) points at a root — the
shape `clone` always produces — a second `init` is the identity on the world,
and therefore any read (`getAll` shown here) repeated after a first read
returns the same mapping and leaves the world unchanged. (The original
claim's stronger assertion that the result is also independent of which other
chain members resolved first is false, by the counterexample.) -/
theorem C5_resolve_idempotent_per_instance :
    ∀ (w : PWorld) (h : Nat) (st : PState), getP w h = some st →
      (∀ src, st.cloneFrom = some src →
        ∃ sts, getP w src = some sts ∧ sts.cloneFrom = none) →
      initP (initP w h) h = initP w h
      ∧ ∀ k, getAllP (getAllP w h k).1 h k = getAllP w h k := by
  intro w h st hg hshape
  obtain ⟨st', hg', hcf', hm'⟩ := initP_resolves hg hshape
  have hl : h < w.params.length := getP_lt hg
  have idem : initP (initP w h) h = initP w h := by
    have hl' : h < (initP w h).params.length := by
      rw [initP, params_initAux]
      exact hl
    obtain ⟨f, hf⟩ : ∃ f, (initP w h).params.length = f + 1 :=
      ⟨(initP w h).params.length - 1, by omega⟩
    have hmf : st'.map.isNone = false := by
      rw [Option.isNone_eq_false_iff]
      exact hm'
    conv_lhs => rw [initP]
    rw [hf]
    unfold initAux
    rw [hg']
    simp [hcf', hmf]
  refine ⟨idem, fun k => ?_⟩
  show getAllP (initP w h) h k = getAllP w h k
  unfold getAllP
  rw [idem]

/-- Witness for C5: the idempotence applied to the resolved reading of the
`append("a","2")` clone of the `"a=1"` root. -/
theorem C5_resolve_idempotent_per_instance_witness :
    (∃ st, getP childW.1 childW.2 = some st
      ∧ ∀ src, st.cloneFrom = some src →
          ∃ sts, getP childW.1 src = some sts ∧ sts.cloneFrom = none)
    ∧ initP (initP childW.1 childW.2) childW.2 = initP childW.1 childW.2 := by
  refine ⟨⟨⟨none, some [⟨"a".data, some "2".data, .a⟩], some 0⟩, by decide, ?_⟩, ?_⟩
  · intro src hsrc
    refine ⟨⟨some [("a".data, 0)], none, none⟩, ?_, rfl⟩
    cases hsrc
    decide
  · exact (C5_resolve_idempotent_per_instance childW.1 childW.2
      ⟨none, some [⟨"a".data, some "2".data, .a⟩], some 0⟩ (by decide)
      (by intro src hsrc; cases hsrc; exact ⟨⟨some [("a".data, 0)], none, none⟩, by decide, rfl⟩)).1

/-! ### Association-list lemmas for the `Map` model -/

theorem jsGet_jsSet_self {α : Type} (m : List (List Char × α)) (k : List Char) (v : α) :
    jsGet (jsSet m k v) k = some v := by
  induction m with
  | nil => simp [jsSet, jsGet]
  | cons kv rest ih =>
    rcases kv with ⟨k', v'⟩
    by_cases hk : k' = k <;> simp [jsSet, jsGet, hk, ih]

theorem jsGet_jsSet_ne {α : Type} (m : List (List Char × α)) {k k' : List Char} (v : α)
    (hne : k' ≠ k) : jsGet (jsSet m k v) k' = jsGet m k' := by
  have hne2 : ¬ k = k' := fun h => hne h.symm
  induction m with
  | nil => simp [jsSet, jsGet, hne2]
  | cons kv rest ih =>
    rcases kv with ⟨k'', v''⟩
    by_cases hk : k'' = k
    · subst hk
      simp only [jsSet, if_pos rfl, jsGet]
      rw [if_neg hne2, if_neg hne2]
    · simp [jsSet, jsGet, hk, ih]

theorem jsGet_eq_none_iff {α : Type} (m : List (List Char × α)) (k : List Char) :
    jsGet m k = none ↔ k ∉ jsKeys m := by
  induction m with
  | nil => simp [jsGet, jsKeys]
  | cons kv rest ih =>
    rcases kv with ⟨k', v'⟩
    by_cases hk : k' = k
    · subst hk
      simp only [jsGet, if_pos rfl, jsKeys, List.map_cons]
      exact iff_of_false (Option.some_ne_none _) (not_not_intro (List.mem_cons_self _ _))
    · have hne2 : ¬ k = k' := fun h => hk h.symm
      simp only [jsGet, if_neg hk, jsKeys, List.map_cons, List.mem_cons, not_or]
      rw [ih]
      exact ⟨fun hnm => ⟨hne2, hnm⟩, fun hp => hp.2⟩

theorem jsGet_mem {α : Type} {m : List (List Char × α)} {k : List Char} {v : α}
    (h : jsGet m k = some v) : (k, v) ∈ m := by
  induction m with
  | nil => simp [jsGet] at h
  | cons kv rest ih =>
    rcases kv with ⟨k', v'⟩
    by_cases hk : k' = k
    · subst hk
      simp [jsGet] at h
      simp [h]
    · simp [jsGet, hk] at h
      exact List.mem_cons_of_mem _ (ih h)

theorem jsSet_self_of_get {α : Type} {m : List (List Char × α)} {k : List Char} {v : α}
    (h : jsGet m k = some v) : jsSet m k v = m := by
  induction m with
  | nil => simp [jsGet] at h
  | cons kv rest ih =>
    rcases kv with ⟨k', v'⟩
    by_cases hk : k' = k
    · subst hk
      simp [jsGet] at h
      simp [jsSet, h]
    · simp [jsGet, hk] at h
      simp [jsSet, hk, ih h]

theorem mem_jsSet {α : Type} {m : List (List Char × α)} {k : List Char} {v : α}
    {kv' : List Char × α} (h : kv' ∈ jsSet m k v) : kv' = (k, v) ∨ kv' ∈ m := by
  induction m with
  | nil => simpa [jsSet] using h
  | cons kv rest ih =>
    rcases kv with ⟨k', v'⟩
    by_cases hk : k' = k
    · simp [jsSet, hk] at h
      rcases h with h | h
      · exact .inl h
      · exact .inr (List.mem_cons_of_mem _ h)
    · simp only [jsSet, if_neg hk, List.mem_cons] at h
      rcases h with h | h
      · exact .inr (by simp [h])
      · rcases ih h with h | h
        · exact .inl h
        · exact .inr (List.mem_cons_of_mem _ h)

theorem jsDel_sublist {α : Type} (m : List (List Char × α)) (k : List Char) :
    (jsDel m k).Sublist m := by
  induction m with
  | nil => simp [jsDel]
  | cons kv rest ih =>
    rcases kv with ⟨k', v'⟩
    by_cases hk : k' = k
    · simp only [jsDel, if_pos hk]
      exact List.sublist_cons_self _ _
    · simp only [jsDel, if_neg hk]
      exact ih.cons₂ _

theorem jsGet_jsDel_self {α : Type} (m : List (List Char × α)) (k : List Char)
    (hnd : (jsKeys m).Nodup) : jsGet (jsDel m k) k = none := by
  induction m with
  | nil => simp [jsDel, jsGet]
  | cons kv rest ih =>
    rcases kv with ⟨k', v'⟩
    rw [jsKeys, List.map_cons, List.nodup_cons] at hnd
    by_cases hk : k' = k
    · subst hk
      rw [jsDel, if_pos rfl, jsGet_eq_none_iff]
      exact hnd.1
    · rw [jsDel, if_neg hk, jsGet, if_neg hk]
      exact ih hnd.2

theorem jsGet_jsDel_ne {α : Type} (m : List (List Char × α)) {k k' : List Char}
    (hne : k' ≠ k) : jsGet (jsDel m k) k' = jsGet m k' := by
  induction m with
  | nil => simp [jsDel]
  | cons kv rest ih =>
    rcases kv with ⟨k'', v''⟩
    by_cases hk : k'' = k
    · subst hk
      rw [jsDel, if_pos rfl, jsGet, if_neg (fun h => hne h.symm)]
    · rw [jsDel, if_neg hk, jsGet, jsGet]
      by_cases hk' : k'' = k' <;> simp [hk', ih]

theorem jsKeys_jsSet {α : Type} (m : List (List Char × α)) (k : List Char) (v : α) :
    jsKeys (jsSet m k v) = if k ∈ jsKeys m then jsKeys m else jsKeys m ++ [k] := by
  induction m with
  | nil => simp [jsSet, jsKeys]
  | cons kv rest ih =>
    rcases kv with ⟨k', v'⟩
    by_cases hk : k' = k
    · subst hk
      simp only [jsSet, jsKeys, List.map_cons]
      rw [if_true, List.map_cons, if_pos (List.mem_cons_self _ _)]
    · have hne2 : ¬ k = k' := fun h => hk h.symm
      simp only [jsSet, if_neg hk, jsKeys, List.map_cons] at ih ⊢
      rw [ih]
      by_cases hmem : k ∈ List.map (·.1) rest
      · rw [if_pos hmem, if_pos (List.mem_cons_of_mem _ hmem)]
      · rw [if_neg hmem, if_neg ?_, List.cons_append]
        intro hcm
        rcases List.mem_cons.mp hcm with h | h
        · exact hne2 h
        · exact hmem h

theorem nodup_jsKeys_jsSet {α : Type} {m : List (List Char × α)} (k : List Char) (v : α)
    (hnd : (jsKeys m).Nodup) : (jsKeys (jsSet m k v)).Nodup := by
  rw [jsKeys_jsSet]
  by_cases hmem : k ∈ jsKeys m
  · rw [if_pos hmem]
    exact hnd
  · rw [if_neg hmem, List.nodup_append]
    refine ⟨hnd, List.nodup_singleton _, ?_⟩
    intro a ha hak
    rw [List.mem_singleton] at hak
    subst hak
    exact hmem ha

theorem nodup_jsKeys_jsDel {α : Type} {m : List (List Char × α)} (k : List Char)
    (hnd : (jsKeys m).Nodup) : (jsKeys (jsDel m k)).Nodup := by
  have hsub : (List.map (fun kv : List Char × α => kv.1) (jsDel m k)).Sublist
      (List.map (fun kv : List Char × α => kv.1) m) := (jsDel_sublist m k).map _
  exact hsub.nodup (by exact hnd)

/-! ### Heap-cell lemmas -/

theorem readArr_writeArr_self {w : PWorld} {hb : Nat} (l : ArrV)
    (hlt : hb < w.arrays.length) : readArr (writeArr w hb l) hb = l := by
  rw [readArr, writeArr]
  simp [List.getElem?_set_self hlt]

theorem readArr_writeArr_ne (w : PWorld) {hb h : Nat} (l : ArrV) (hne : h ≠ hb) :
    readArr (writeArr w hb l) h = readArr w h := by
  rw [readArr, writeArr]
  simp only [List.getElem?_set_ne (fun he => hne he.symm)]
  rfl

theorem readArr_allocArr_lt {w : PWorld} {h : Nat} (l : ArrV)
    (hlt : h < w.arrays.length) : readArr (allocArr w l).1 h = readArr w h := by
  rw [readArr, allocArr]
  simp [List.getElem?_append_left hlt]
  rfl

theorem readArr_allocArr_len (w : PWorld) (l : ArrV) :
    readArr (allocArr w l).1 w.arrays.length = l := by
  rw [readArr, allocArr]
  simp

/-! ### Dereferencing lemmas for the simulation -/

theorem jsGet_map {α β : Type} (M : List (List Char × α)) (f : α → β) (p : List Char) :
    jsGet (M.map fun kv => (kv.1, f kv.2)) p = (jsGet M p).map f := by
  induction M with
  | nil => simp [jsGet]
  | cons kv rest ih =>
    rcases kv with ⟨k', v'⟩
    by_cases hk : k' = p <;> simp [jsGet, hk, ih]

theorem jsSet_map {α β : Type} (M : List (List Char × α)) (f : α → β) (p : List Char)
    (v : α) :
    (jsSet M p v).map (fun kv => (kv.1, f kv.2))
      = jsSet (M.map fun kv => (kv.1, f kv.2)) p (f v) := by
  induction M with
  | nil => simp [jsSet]
  | cons kv rest ih =>
    rcases kv with ⟨k', v'⟩
    by_cases hk : k' = p <;> simp [jsSet, hk, ih]

theorem jsDel_map {α β : Type} (M : List (List Char × α)) (f : α → β) (p : List Char) :
    (jsDel M p).map (fun kv => (kv.1, f kv.2))
      = jsDel (M.map fun kv => (kv.1, f kv.2)) p := by
  induction M with
  | nil => simp [jsDel]
  | cons kv rest ih =>
    rcases kv with ⟨k', v'⟩
    by_cases hk : k' = p <;> simp [jsDel, hk, ih]

/-- Entries whose handles avoid the written cell dereference unchanged. -/
theorem deref_map_write_away (M : List (StrV × Nat)) {hb : Nat} (w : PWorld) (l : ArrV)
    (haway : ∀ kv ∈ M, kv.2 ≠ hb) :
    M.map (fun kv => (kv.1, readArr (writeArr w hb l) kv.2))
      = M.map fun kv => (kv.1, readArr w kv.2) := by
  apply List.map_congr_left
  intro kv hkv
  rw [readArr_writeArr_ne _ _ (haway kv hkv)]

/-- Writing through the unaliased handle bound to `p` dereferences to a
`Map.set` on the observable mapping. -/
theorem deref_map_write (M : List (StrV × Nat)) {p : StrV} {hb : Nat} (w : PWorld)
    (l : ArrV) (hget : jsGet M p = some hb) (hnd : (M.map (·.2)).Nodup)
    (hlt : hb < w.arrays.length) :
    M.map (fun kv => (kv.1, readArr (writeArr w hb l) kv.2))
      = jsSet (M.map fun kv => (kv.1, readArr w kv.2)) p l := by
  induction M with
  | nil => simp [jsGet] at hget
  | cons kv rest ih =>
    rcases kv with ⟨k1, h1⟩
    rw [List.map_cons, List.nodup_cons] at hnd
    by_cases hk : k1 = p
    · subst hk
      simp only [jsGet, if_true, Option.some.injEq] at hget
      subst hget
      simp only [List.map_cons, jsSet, if_true]
      rw [readArr_writeArr_self _ hlt,
        deref_map_write_away rest w l fun kv hkv he => hnd.1 (List.mem_map.mpr ⟨kv, hkv, he⟩)]
    · simp only [jsGet, if_neg hk] at hget
      have hbmem : hb ∈ rest.map (·.2) := List.mem_map_of_mem _ (jsGet_mem hget)
      have h1ne : h1 ≠ hb := fun he => hnd.1 (he ▸ hbmem)
      simp only [List.map_cons, jsSet, if_neg hk]
      rw [readArr_writeArr_ne _ _ h1ne, ih hget hnd.2]

/-- After deleting `p`, no remaining entry holds `p`'s (unaliased) handle. -/
theorem mem_jsDel_handle_ne {M : List (StrV × Nat)} {p : StrV} {hb : Nat}
    (hget : jsGet M p = some hb) (hnd : (M.map (·.2)).Nodup) :
    ∀ kv ∈ jsDel M p, kv.2 ≠ hb := by
  induction M with
  | nil => simp [jsDel]
  | cons kv rest ih =>
    rcases kv with ⟨k1, h1⟩
    rw [List.map_cons, List.nodup_cons] at hnd
    by_cases hk : k1 = p
    · subst hk
      simp only [jsGet, if_true, Option.some.injEq] at hget
      subst hget
      simp only [jsDel, if_true]
      intro kv hkv he
      exact hnd.1 (List.mem_map.mpr ⟨kv, hkv, he⟩)
    · simp only [jsGet, if_neg hk] at hget
      have hbmem : hb ∈ rest.map (·.2) := List.mem_map_of_mem _ (jsGet_mem hget)
      simp only [jsDel, if_neg hk]
      intro kv hkv
      rcases List.mem_cons.mp hkv with he | hkv'
      · subst he
        exact fun he2 => hnd.1 (he2 ▸ hbmem)
      · exact ih hget hnd.2 kv hkv'

/-- Handles stay pairwise distinct when a fresh handle is bound. -/
theorem handles_nodup_jsSet_fresh {M : List (StrV × Nat)} {p : StrV} {nh : Nat}
    (hnd : (M.map (·.2)).Nodup) (hfresh : ∀ kv ∈ M, kv.2 ≠ nh) :
    ((jsSet M p nh).map (·.2)).Nodup := by
  induction M with
  | nil => simp [jsSet]
  | cons kv rest ih =>
    rcases kv with ⟨k1, h1⟩
    rw [List.map_cons, List.nodup_cons] at hnd
    by_cases hk : k1 = p
    · subst hk
      simp only [jsSet, if_true, List.map_cons, List.nodup_cons]
      refine ⟨?_, hnd.2⟩
      intro hmem
      obtain ⟨kv', hkv', he⟩ := List.mem_map.mp hmem
      exact hfresh kv' (List.mem_cons_of_mem _ hkv') he
    · simp only [jsSet, if_neg hk, List.map_cons, List.nodup_cons]
      refine ⟨?_, ih hnd.2 fun kv hkv => hfresh kv (List.mem_cons_of_mem _ hkv)⟩
      intro hmem
      obtain ⟨kv', hkv', he⟩ := List.mem_map.mp hmem
      rcases mem_jsSet hkv' with he2 | he2
      · exact hfresh (k1, h1) (List.mem_cons_self _ _) (by rw [he2] at he; exact he.symm)
      · exact hnd.1 (List.mem_map.mpr ⟨kv', he2, he⟩)

/-- `setMapP` keeps the arrays. -/
theorem arrays_setMapP (w : PWorld) (h : Nat) (m : List (StrV × Nat)) :
    (setMapP w h m).arrays = w.arrays := by
  unfold setMapP
  cases getP w h <;> rfl

/-- `setMapP` installs exactly the given map. -/
theorem mapOfP_setMapP {w : PWorld} {h : Nat} {st : PState} (hg : getP w h = some st)
    (m : List (StrV × Nat)) : mapOfP (setMapP w h m) h = m := by
  rw [mapOfP, setMapP_state hg]
  rfl

/-- World projections commute with allocation and writes on the instances. -/
theorem mapOfP_allocArr (w : PWorld) (l : ArrV) (h : Nat) :
    mapOfP (allocArr w l).1 h = mapOfP w h := rfl

/-- Array writes do not touch the instance maps. -/
theorem mapOfP_writeArr (w : PWorld) (hb : Nat) (l : ArrV) (h : Nat) :
    mapOfP (writeArr w hb l) h = mapOfP w h := rfl

/-- Assembly of the simulation relation for a `setMapP` result. -/
theorem RelW_setMapP {w2 : PWorld} {h : Nat} {st : PState} (hg2 : getP w2 h = some st)
    {M' : List (StrV × Nat)} {pm' : List (StrV × ArrV)}
    (hder : M'.map (fun kv => (kv.1, readArr w2 kv.2)) = pm')
    (hbd : ∀ kv ∈ M', kv.2 < w2.arrays.length)
    (hnd : (M'.map (·.2)).Nodup) :
    RelW (setMapP w2 h M') h pm' := by
  have hre : ∀ hb, readArr (setMapP w2 h M') hb = readArr w2 hb := fun hb => by
    rw [readArr, readArr, arrays_setMapP]
  refine ⟨?_, ?_, ?_, ?_⟩
  · rw [setMapP_state hg2]
    rfl
  · rw [derefMap, mapOfP_setMapP hg2, ← hder]
    apply List.map_congr_left
    intro kv hkv
    rw [hre]
  · intro kv hkv
    rw [arrays_setMapP]
    exact hbd kv (by rwa [mapOfP_setMapP hg2] at hkv)
  · rwa [mapOfP_setMapP hg2]

/-- Assembly of the simulation relation for a key removal. -/
theorem RelW_jsDel {w : PWorld} {h : Nat} {pm : List (StrV × ArrV)} {st : PState}
    (hg : getP w h = some st) (hder : derefMap w h = pm)
    (hbd : ∀ kv ∈ mapOfP w h, kv.2 < w.arrays.length)
    (hnd : ((mapOfP w h).map (·.2)).Nodup) (p : StrV) :
    RelW (setMapP w h (jsDel (mapOfP w h) p)) h (jsDel pm p) := by
  apply RelW_setMapP hg
  · rw [← hder, derefMap, jsDel_map]
  · intro kv hkv
    exact hbd kv ((jsDel_sublist _ p).subset hkv)
  · have hsub : ((jsDel (mapOfP w h) p).map (·.2)).Sublist ((mapOfP w h).map (·.2)) :=
      (jsDel_sublist _ p).map _
    exact hsub.nodup hnd

/-- Assembly of the simulation relation for binding a freshly allocated
array. -/
theorem RelW_alloc {w : PWorld} {h : Nat} {pm : List (StrV × ArrV)} {st : PState}
    (hg : getP w h = some st) (hder : derefMap w h = pm)
    (hbd : ∀ kv ∈ mapOfP w h, kv.2 < w.arrays.length)
    (hnd : ((mapOfP w h).map (·.2)).Nodup) (p : StrV) (l : ArrV) :
    RelW
      (setMapP (allocArr w l).1 h
        (jsSet (mapOfP (allocArr w l).1 h) p (allocArr w l).2))
      h (jsSet pm p l) := by
  apply RelW_setMapP (show getP (allocArr w l).1 h = some st from hg)
  · rw [mapOfP_allocArr, jsSet_map]
    show jsSet _ p (readArr (allocArr w l).1 w.arrays.length) = _
    rw [readArr_allocArr_len, ← hder, derefMap]
    congr 1
    apply List.map_congr_left
    intro kv hkv
    show (kv.1, readArr (allocArr w l).1 kv.2) = _
    rw [readArr_allocArr_lt _ (hbd kv hkv)]
  · intro kv hkv
    rw [mapOfP_allocArr] at hkv
    have hlen : (allocArr w l).1.arrays.length = w.arrays.length + 1 := by
      simp [allocArr]
    rw [hlen]
    rcases mem_jsSet hkv with he | he
    · rw [he]
      exact Nat.lt_succ_self _
    · exact Nat.lt_succ_of_lt (hbd kv he)
  · rw [mapOfP_allocArr]
    apply handles_nodup_jsSet_fresh hnd
    intro kv hkv he
    have hlt := hbd kv hkv
    rw [he] at hlt
    exact lt_irrefl _ hlt

/-- Assembly of the simulation relation for an in-place push or splice
through the (unaliased) handle already bound to `p`. -/
theorem RelW_write {w : PWorld} {h : Nat} {pm : List (StrV × ArrV)} {st : PState}
    {p : StrV} {hb : Nat}
    (hg : getP w h = some st) (hder : derefMap w h = pm)
    (hbd : ∀ kv ∈ mapOfP w h, kv.2 < w.arrays.length)
    (hnd : ((mapOfP w h).map (·.2)).Nodup)
    (hget : jsGet (mapOfP w h) p = some hb) (l : ArrV) :
    RelW
      (setMapP (writeArr w hb l) h
        (jsSet (mapOfP (writeArr w hb l) h) p hb))
      h (jsSet pm p l) := by
  have hlt : hb < w.arrays.length := hbd _ (jsGet_mem hget)
  apply RelW_setMapP (show getP (writeArr w hb l) h = some st from hg)
  · rw [mapOfP_writeArr, jsSet_self_of_get hget, ← hder, derefMap]
    exact deref_map_write _ w l hget hnd hlt
  · intro kv hkv
    rw [mapOfP_writeArr, jsSet_self_of_get hget] at hkv
    show kv.2 < (w.arrays.set hb l).length
    rw [List.length_set]
    exact hbd kv hkv
  · rw [mapOfP_writeArr, jsSet_self_of_get hget]
    exact hnd

/-- Assembly of the simulation relation for a splice that empties the array:
the key is dropped, and the spliced (shared) cell is unobservable from this
container afterwards. -/
theorem RelW_write_del {w : PWorld} {h : Nat} {pm : List (StrV × ArrV)} {st : PState}
    {p : StrV} {hb : Nat}
    (hg : getP w h = some st) (hder : derefMap w h = pm)
    (hbd : ∀ kv ∈ mapOfP w h, kv.2 < w.arrays.length)
    (hnd : ((mapOfP w h).map (·.2)).Nodup)
    (hget : jsGet (mapOfP w h) p = some hb) (l : ArrV) :
    RelW
      (setMapP (writeArr w hb l) h
        (jsDel (mapOfP (writeArr w hb l) h) p))
      h (jsDel pm p) := by
  apply RelW_setMapP (show getP (writeArr w hb l) h = some st from hg)
  · rw [mapOfP_writeArr]
    rw [deref_map_write_away _ _ _ (mem_jsDel_handle_ne hget hnd), jsDel_map, ← hder, derefMap]
  · intro kv hkv
    rw [mapOfP_writeArr] at hkv
    show kv.2 < (w.arrays.set hb l).length
    rw [List.length_set]
    exact hbd kv ((jsDel_sublist _ p).subset hkv)
  · rw [mapOfP_writeArr]
    have hsub : ((jsDel (mapOfP w h) p).map (·.2)).Sublist ((mapOfP w h).map (·.2)) :=
      (jsDel_sublist _ p).map _
    exact hsub.nodup hnd

/-- One step of the replay, on a world related to a pure mapping, lands in a
world related to the pure step: the update-replay `switch` of `init` acting
on a container with unaliased in-range handles is exactly the pure
transcription `pureApply`. -/
theorem RelW_applyUpdate {w : PWorld} {h : Nat} {pm : List (StrV × ArrV)}
    (hrel : RelW w h pm) (u : Update) :
    RelW (applyUpdate w h u) h (pureApply pm u) := by
  obtain ⟨hval, hder, hbd, hnd⟩ := hrel
  obtain ⟨st, hg⟩ := Option.isSome_iff_exists.mp hval
  have hpmget : ∀ q, jsGet pm q = (jsGet (mapOfP w h) q).map (readArr w) := fun q => by
    rw [← hder, derefMap, jsGet_map]
  rcases u with ⟨p, vo, op⟩
  cases op with
  | s =>
    simp only [applyUpdate, pureApply, reduceCtorEq, reduceIte, Option.getD_none,
      List.nil_append]
    exact RelW_alloc hg hder hbd hnd p _
  | a =>
    simp only [applyUpdate, pureApply, reduceIte]
    cases hget : jsGet (mapOfP w h) p with
    | none =>
      rw [hpmget p, hget]
      simp only [Option.map_none', Option.getD_none, List.nil_append]
      exact RelW_alloc hg hder hbd hnd p _
    | some hb =>
      rw [hpmget p, hget]
      simp only [Option.map_some', Option.getD_some]
      exact RelW_write hg hder hbd hnd hget _
  | d =>
    simp only [applyUpdate, pureApply]
    cases vo with
    | none => exact RelW_jsDel hg hder hbd hnd p
    | some v =>
      simp only []
      cases hget : jsGet (mapOfP w h) p with
      | none =>
        rw [hpmget p, hget]
        simp only [Option.map_none', Option.getD_none, List.findIdx?_nil,
          List.length_nil, gt_iff_lt, lt_irrefl, if_false]
        exact RelW_jsDel hg hder hbd hnd p
      | some hb =>
        rw [hpmget p, hget]
        simp only [Option.map_some', Option.getD_some]
        cases hidx : (readArr w hb).findIdx? (· = v) with
        | none =>
          dsimp only
          by_cases hlen : (readArr w hb).length > 0
          · rw [if_pos hlen, if_pos hlen]
            have hp : jsGet pm p = some (readArr w hb) := by rw [hpmget p, hget]; rfl
            rw [jsSet_self_of_get hget, jsSet_self_of_get hp]
            exact RelW_setMapP hg (by rw [← hder]; rfl) hbd hnd
          · rw [if_neg hlen, if_neg hlen]
            exact RelW_jsDel hg hder hbd hnd p
        | some idx =>
          dsimp only
          by_cases hlen : ((readArr w hb).eraseIdx idx).length > 0
          · rw [if_pos hlen, if_pos hlen]
            exact RelW_write hg hder hbd hnd hget _
          · rw [if_neg hlen, if_neg hlen]
            exact RelW_write_del hg hder hbd hnd hget _

/-- Iterated replay preserves the simulation. -/
theorem RelW_replay {h : Nat} (us : List Update) :
    ∀ {w : PWorld} {pm : List (StrV × ArrV)},
    RelW w h pm → RelW (replayUpdates w h us) h (pureReplay pm us) := by
  induction us with
  | nil => intro w pm hrel; exact hrel
  | cons u us ih =>
    intro w pm hrel
    show RelW (replayUpdates (applyUpdate w h u) h us) h (pureReplay (pureApply pm u) us)
    exact ih (RelW_applyUpdate hrel u)

/-- Binding a key absent from the map appends it. -/
theorem jsSet_append_of_not_mem {α : Type} {m : List (List Char × α)} {k : List Char}
    (hnm : k ∉ jsKeys m) (v : α) : jsSet m k v = m ++ [(k, v)] := by
  induction m with
  | nil => rfl
  | cons kv rest ih =>
    rcases kv with ⟨k', v'⟩
    rw [jsKeys, List.map_cons, List.mem_cons, not_or] at hnm
    rw [jsSet, if_neg (fun h => hnm.1 h.symm), ih hnm.2, List.cons_append]

/-- Entering a key-distinct list of bindings via `Map.prototype.set` appends
it wholesale. -/
theorem foldl_jsSet_self {α : Type} :
    ∀ (B acc : List (List Char × α)), (∀ k ∈ jsKeys B, k ∉ jsKeys acc) →
    (jsKeys B).Nodup →
    B.foldl (fun m kv => jsSet m kv.1 kv.2) acc = acc ++ B := by
  intro B
  induction B with
  | nil => intro acc _ _; simp
  | cons kv rest ih =>
    rcases kv with ⟨k, v⟩
    intro acc hdis hnd
    rw [jsKeys, List.map_cons, List.nodup_cons] at hnd
    rw [List.foldl_cons]
    rw [jsSet_append_of_not_mem (hdis k (show k ∈ jsKeys ((k, v) :: rest) from List.mem_cons_self _ _)) v]
    rw [ih (acc ++ [(k, v)]) ?_ hnd.2, List.append_assoc, List.singleton_append]
    intro k' hk'
    rw [jsKeys, List.map_append, List.mem_append, not_or]
    refine ⟨hdis k' (show k' ∈ jsKeys ((k, v) :: rest) from List.mem_cons_of_mem _ hk'), ?_⟩
    simp only [List.map_cons, List.map_nil, List.mem_singleton]
    rintro rfl
    exact hnd.1 hk'

/-- The construction fold: fresh in-range pairwise-distinct handles whose
dereferencing is the pure `fromObject` mapping, keys entered `Map`-style
(hence distinct), and no instances touched. -/
theorem allocFold_go (rm : List (StrV × ArrV)) :
    ∀ (w : PWorld) (b : List (StrV × Nat)) (pacc : List (StrV × ArrV)),
    (∀ kv ∈ b, kv.2 < w.arrays.length) → ((b.map (·.2)).Nodup) →
    (b.map (fun kv => (kv.1, readArr w kv.2)) = pacc) → ((jsKeys b).Nodup) →
    (∀ kv ∈ (rm.foldl (fun acc kv =>
          ((allocArr acc.1 kv.2).1, jsSet acc.2 kv.1 (allocArr acc.1 kv.2).2)) (w, b)).2,
        kv.2 < (rm.foldl (fun acc kv =>
          ((allocArr acc.1 kv.2).1, jsSet acc.2 kv.1 (allocArr acc.1 kv.2).2)) (w, b)).1.arrays.length)
    ∧ (((rm.foldl (fun acc kv =>
          ((allocArr acc.1 kv.2).1, jsSet acc.2 kv.1 (allocArr acc.1 kv.2).2)) (w, b)).2.map (·.2)).Nodup)
    ∧ ((rm.foldl (fun acc kv =>
          ((allocArr acc.1 kv.2).1, jsSet acc.2 kv.1 (allocArr acc.1 kv.2).2)) (w, b)).2.map
        (fun kv => (kv.1, readArr (rm.foldl (fun acc kv =>
          ((allocArr acc.1 kv.2).1, jsSet acc.2 kv.1 (allocArr acc.1 kv.2).2)) (w, b)).1 kv.2))
        = rm.foldl (fun m kv => jsSet m kv.1 kv.2) pacc)
    ∧ ((jsKeys (rm.foldl (fun acc kv =>
          ((allocArr acc.1 kv.2).1, jsSet acc.2 kv.1 (allocArr acc.1 kv.2).2)) (w, b)).2).Nodup)
    ∧ ((rm.foldl (fun acc kv =>
          ((allocArr acc.1 kv.2).1, jsSet acc.2 kv.1 (allocArr acc.1 kv.2).2)) (w, b)).1.params
        = w.params) := by
  induction rm with
  | nil => intro w b pacc hbd hnd hder hknd; exact ⟨hbd, hnd, hder, hknd, rfl⟩
  | cons kv0 rest ih =>
    rcases kv0 with ⟨k, vs⟩
    intro w b pacc hbd hnd hder hknd
    rw [List.foldl_cons]
    have hfresh : ∀ kv ∈ b, kv.2 ≠ w.arrays.length := fun kv hkv he => by
      have hlt := hbd kv hkv
      rw [he] at hlt
      exact lt_irrefl _ hlt
    refine ih (allocArr w vs).1 (jsSet b k (allocArr w vs).2) (jsSet pacc k vs)
      ?_ ?_ ?_ ?_
    · intro kv hkv
      have hlen : (allocArr w vs).1.arrays.length = w.arrays.length + 1 := by
        simp [allocArr]
      rw [hlen]
      rcases mem_jsSet hkv with he | he
      · rw [he]
        exact Nat.lt_succ_self _
      · exact Nat.lt_succ_of_lt (hbd kv he)
    · exact handles_nodup_jsSet_fresh hnd hfresh
    · rw [jsSet_map]
      show jsSet _ k (readArr (allocArr w vs).1 w.arrays.length) = _
      rw [readArr_allocArr_len, ← hder]
      congr 1
      apply List.map_congr_left
      intro kv hkv
      show (kv.1, readArr (allocArr w vs).1 kv.2) = _
      rw [readArr_allocArr_lt _ (hbd kv hkv)]
    · exact nodup_jsKeys_jsSet k _ hknd

/-- The `fromObject` construction from the empty world: in-range unaliased
handles, dereferencing to the pure mapping, distinct keys, no instances. -/
theorem allocFold_spec (rm : List (StrV × ArrV)) :
    (∀ kv ∈ (allocFold emptyW rm).2, kv.2 < (allocFold emptyW rm).1.arrays.length)
    ∧ (((allocFold emptyW rm).2.map (·.2)).Nodup)
    ∧ ((allocFold emptyW rm).2.map
        (fun kv => (kv.1, readArr (allocFold emptyW rm).1 kv.2)) = pureRoot rm)
    ∧ ((jsKeys (allocFold emptyW rm).2).Nodup)
    ∧ ((allocFold emptyW rm).1.params = []) :=
  allocFold_go rm emptyW [] [] (by simp) (by simp) (by simp) (by simp [jsKeys])

/-- Reduction of the constructor on a structured-map source. -/
theorem newParams_obj (w : PWorld) (fo : List (StrV × ArrV)) :
    newParams w none (some fo)
      = .ok (addP (allocFold w fo).1 ⟨some (allocFold w fo).2, none, none⟩) := by
  rw [newParams, if_neg (by simp), if_pos (by simp)]
  rfl

/-- The two-instance scenario world, explicitly. -/
theorem dWorld_eq (rm : List (StrV × ArrV)) (us : List Update) :
    dWorld rm us = (preW rm us, 1) := by
  rw [dWorld, newParams_obj]
  dsimp only [addP, cloneP, getP]
  rw [(allocFold_spec rm).2.2.2.2]
  rfl

/-- The simulation holds at the start of the replay. -/
theorem RelW_startW (rm : List (StrV × ArrV)) (us : List Update) :
    RelW (startW rm us) 1 (pureRoot rm) := by
  obtain ⟨hbd, hnd, hder, hknd, hpar⟩ := allocFold_spec rm
  exact ⟨rfl, hder, hbd, hnd⟩

/-- Unfolding of `init` with fuel 2 on the two-instance scenario world: the
derived map is materialized, the root is already materialized, the root's
bindings are copied in by reference, the log is replayed, and the clone
fields are cleared. -/
theorem initAux_two (A : List ArrV) (B : List (StrV × Nat)) (us : List Update) :
    initAux 2 (⟨A, [⟨some B, none, none⟩, ⟨none, some us, some 0⟩]⟩ : PWorld) 1
      = (match getP (replayUpdates (⟨A, [⟨some B, none, none⟩,
            ⟨some (B.foldl (fun m kv => jsSet m kv.1 kv.2) []), some us, some 0⟩]⟩ : PWorld)
            1 us) 1 with
        | none => replayUpdates (⟨A, [⟨some B, none, none⟩,
            ⟨some (B.foldl (fun m kv => jsSet m kv.1 kv.2) []), some us, some 0⟩]⟩ : PWorld)
            1 us
        | some st' => setP (replayUpdates (⟨A, [⟨some B, none, none⟩,
            ⟨some (B.foldl (fun m kv => jsSet m kv.1 kv.2) []), some us, some 0⟩]⟩ : PWorld)
            1 us) 1 { st' with cloneFrom := none, updates := none }) := rfl

/-- Resolution of the derived container: copy the root's bindings and replay,
then clear the clone fields. -/
theorem initP_preW (rm : List (StrV × ArrV)) (us : List Update) {st4 : PState}
    (hst4 : getP (replayW rm us) 1 = some st4) :
    initP (preW rm us) 1
      = setP (replayW rm us) 1 { st4 with cloneFrom := none, updates := none } := by
  have hfold : (allocFold emptyW rm).2.foldl (fun m kv => jsSet m kv.1 kv.2) []
      = (allocFold emptyW rm).2 :=
    (foldl_jsSet_self _ [] (fun k _ => List.not_mem_nil k)
      (allocFold_spec rm).2.2.2.1).trans (List.nil_append _)
  have h0 : initP (preW rm us) 1 = initAux 2 (preW rm us) 1 := rfl
  rw [h0, show preW rm us = (⟨(allocFold emptyW rm).1.arrays,
      [⟨some (allocFold emptyW rm).2, none, none⟩, ⟨none, some us, some 0⟩]⟩ : PWorld)
    from rfl, initAux_two, hfold]
  rw [show replayUpdates (⟨(allocFold emptyW rm).1.arrays,
      [⟨some (allocFold emptyW rm).2, none, none⟩,
       ⟨some (allocFold emptyW rm).2, some us, some 0⟩]⟩ : PWorld) 1 us
    = replayW rm us from rfl, hst4]

/-- Adequacy of the pure reading for `getAll`: for the derived container
resolved in the pristine world, the observable value list of every key is the
pure replay of the update log over the pure `fromObject` mapping. -/
theorem dGetAll_pure (rm : List (StrV × ArrV)) (us : List Update) (k : StrV) :
    dGetAll rm us k = jsGet (pureReplay (pureRoot rm) us) k := by
  obtain ⟨hval, hder0, hbd, hnd⟩ := RelW_replay us (RelW_startW rm us)
  obtain ⟨st4, hst40⟩ := Option.isSome_iff_exists.mp hval
  have hst4 : getP (replayW rm us) 1 = some st4 := hst40
  have hder : derefMap (replayW rm us) 1 = pureReplay (pureRoot rm) us := hder0
  show (getAllP (dWorld rm us).1 (dWorld rm us).2 k).2 = _
  rw [dWorld_eq]
  show (jsGet (mapOfP (initP (preW rm us) 1) 1) k).map (readArr (initP (preW rm us) 1)) = _
  rw [initP_preW rm us hst4]
  have h1 : 1 < (replayW rm us).params.length := by
    rw [replayW, params_replay]
    show 1 < 2
    omega
  have hm : mapOfP (setP (replayW rm us) 1
        { st4 with cloneFrom := none, updates := none }) 1
      = mapOfP (replayW rm us) 1 := by
    rw [mapOfP, getP_setP_self _ h1, mapOfP, hst4]
    rfl
  rw [hm, show readArr (setP (replayW rm us) 1
      { st4 with cloneFrom := none, updates := none }) = readArr (replayW rm us) from rfl]
  rw [← jsGet_map]
  show jsGet (derefMap (replayW rm us) 1) k = _
  rw [hder]

/-- Adequacy of the pure reading for `has`. -/
theorem dHas_pure (rm : List (StrV × ArrV)) (us : List Update) (k : StrV) :
    dHas rm us k = (jsGet (pureReplay (pureRoot rm) us) k).isSome := by
  have h := dGetAll_pure rm us k
  show (hasP (dWorld rm us).1 (dWorld rm us).2 k).2 = _
  rw [dWorld_eq]
  show (jsGet (mapOfP (initP (preW rm us) 1) 1) k).isSome = _
  have h2 : dGetAll rm us k
      = (jsGet (mapOfP (initP (preW rm us) 1) 1) k).map (readArr (initP (preW rm us) 1)) := by
    rw [dGetAll, dWorld_eq]
    rfl
  rw [h2] at h
  rw [← h]
  cases jsGet (mapOfP (initP (preW rm us) 1) 1) k <;> rfl

/-- Key sets stay duplicate-free under a fold of `jsSet`s. -/
theorem nodup_keys_foldl_jsSet (rm : List (StrV × ArrV)) :
    ∀ m : List (StrV × ArrV), (jsKeys m).Nodup →
      (jsKeys (rm.foldl (fun m kv => jsSet m kv.1 kv.2) m)).Nodup := by
  induction rm with
  | nil => intro m h; exact h
  | cons kv rest ih => intro m h; exact ih _ (nodup_jsKeys_jsSet _ _ h)

/-- The pure `fromObject` mapping has duplicate-free keys. -/
theorem nodup_keys_pureRoot (rm : List (StrV × ArrV)) :
    (jsKeys (pureRoot rm)).Nodup :=
  nodup_keys_foldl_jsSet rm [] List.nodup_nil

/-- One replayed update keeps the keys duplicate-free. -/
theorem nodup_keys_pureApply (u : Update) {m : List (StrV × ArrV)}
    (h : (jsKeys m).Nodup) : (jsKeys (pureApply m u)).Nodup := by
  rcases u with ⟨p, val, op⟩
  cases op with
  | a => exact nodup_jsKeys_jsSet _ _ h
  | s => exact nodup_jsKeys_jsSet _ _ h
  | d =>
    cases val with
    | none => exact nodup_jsKeys_jsDel _ h
    | some v =>
      show (jsKeys (if _ then jsSet m p _ else jsDel m p)).Nodup
      split
      · exact nodup_jsKeys_jsSet _ _ h
      · exact nodup_jsKeys_jsDel _ h

/-- The whole replay keeps the keys duplicate-free. -/
theorem nodup_keys_pureReplay (us : List Update) : ∀ {m : List (StrV × ArrV)},
    (jsKeys m).Nodup → (jsKeys (pureReplay m us)).Nodup := by
  induction us with
  | nil => intro m h; exact h
  | cons u us ih => intro m h; exact ih (nodup_keys_pureApply u h)

/-- Replay of a log extended by one update applies that update last. -/
theorem pureReplay_append (m : List (StrV × ArrV)) (us : List Update)
    (u : Update) : pureReplay m (us ++ [u]) = pureApply (pureReplay m us) u := by
  rw [pureReplay, List.foldl_append]
  rfl

/-- Removing the first occurrence found by `findIdx?` is `List.erase`. -/
theorem delBase_eq_erase (v : StrV) : ∀ l : List StrV,
    (match l.findIdx? (fun x => x = v) with
      | some idx => l.eraseIdx idx
      | none => l) = l.erase v := by
  intro l
  induction l with
  | nil => rfl
  | cons x xs ih =>
    rw [List.erase_cons, List.findIdx?_cons]
    by_cases hx : x = v
    · subst hx
      rw [if_pos (by simp), if_pos (by simp)]
      rfl
    · rw [if_neg (by simp [hx]), if_neg (by simp [hx]), List.findIdx?_succ]
      cases hidx : xs.findIdx? (fun y => decide (y = v)) with
      | none =>
        rw [← ih, hidx]
        rfl
      | some idx =>
        rw [← ih, hidx]
        rfl

/-- The replay of `delete` with a value: erase the first occurrence, and drop
the key whenever the remaining value list is empty. -/
theorem pureApply_del_some (m : List (StrV × ArrV)) (k v : StrV) :
    pureApply m ⟨k, some v, .d⟩
      = (if (((jsGet m k).getD []).erase v).length > 0
         then jsSet m k (((jsGet m k).getD []).erase v)
         else jsDel m k) := by
  have h := delBase_eq_erase v ((jsGet m k).getD [])
  unfold pureApply
  dsimp only
  rw [h]

/-- C3: over the derived container resolved in the pristine world — updates
replayed strictly in recorded order — appending one more `set(k,v)` to the log
makes `k` map to exactly `[v]`; appending `append(k,v)` puts `v` after the
existing values of `k` (creating the key if absent) and drops nothing;
appending `delete(k,v)` erases the first occurrence of `v` among `k`'s values
and removes the key exactly when the remaining list is empty (so when `v` is
absent it is a no-op only while the list stays non-empty); appending
`delete(k)` removes the key, making `has(k)` false; and every such update
leaves all other keys unchanged. -/
theorem C3_update_replay_semantics (rm : List (StrV × ArrV)) (us : List Update)
    (k v : StrV) :
    (dGetAll rm (us ++ [⟨k, some v, .s⟩]) k = some [v])
    ∧ (dGetAll rm (us ++ [⟨k, some v, .a⟩]) k
        = some ((dGetAll rm us k).getD [] ++ [v]))
    ∧ (dGetAll rm (us ++ [⟨k, some v, .d⟩]) k
        = if (((dGetAll rm us k).getD []).erase v).length > 0
          then some (((dGetAll rm us k).getD []).erase v) else none)
    ∧ (dGetAll rm (us ++ [⟨k, none, .d⟩]) k = none)
    ∧ (dHas rm (us ++ [⟨k, none, .d⟩]) k = false)
    ∧ (∀ k', k' ≠ k → ∀ val op,
        dGetAll rm (us ++ [⟨k, val, op⟩]) k' = dGetAll rm us k') := by
  have hnd := nodup_keys_pureReplay us (nodup_keys_pureRoot rm)
  refine ⟨?_, ?_, ?_, ?_, ?_, ?_⟩
  · rw [dGetAll_pure, pureReplay_append]
    show jsGet (jsSet (pureReplay (pureRoot rm) us) k [v]) k = some [v]
    exact jsGet_jsSet_self _ _ _
  · rw [dGetAll_pure rm (us ++ [(⟨k, some v, UpOp.a⟩ : Update)]) k, pureReplay_append,
      dGetAll_pure rm us k]
    show jsGet (jsSet (pureReplay (pureRoot rm) us) k
        ((jsGet (pureReplay (pureRoot rm) us) k).getD [] ++ [v])) k = _
    exact jsGet_jsSet_self _ _ _
  · rw [dGetAll_pure rm (us ++ [(⟨k, some v, UpOp.d⟩ : Update)]) k, pureReplay_append,
      pureApply_del_some, dGetAll_pure rm us k]
    by_cases hlen :
        (((jsGet (pureReplay (pureRoot rm) us) k).getD []).erase v).length > 0
    · rw [if_pos hlen, if_pos hlen]
      exact jsGet_jsSet_self _ _ _
    · rw [if_neg hlen, if_neg hlen]
      exact jsGet_jsDel_self _ _ hnd
  · rw [dGetAll_pure, pureReplay_append]
    show jsGet (jsDel (pureReplay (pureRoot rm) us) k) k = none
    exact jsGet_jsDel_self _ _ hnd
  · rw [dHas_pure, pureReplay_append]
    show (jsGet (jsDel (pureReplay (pureRoot rm) us) k) k).isSome = false
    rw [jsGet_jsDel_self _ _ hnd]
    rfl
  · intro k' hne val op
    rw [dGetAll_pure rm (us ++ [(⟨k, val, op⟩ : Update)]) k', pureReplay_append,
      dGetAll_pure rm us k']
    cases op with
    | a =>
      show jsGet (jsSet (pureReplay (pureRoot rm) us) k _) k' = _
      exact jsGet_jsSet_ne _ _ hne
    | s =>
      show jsGet (jsSet (pureReplay (pureRoot rm) us) k _) k' = _
      exact jsGet_jsSet_ne _ _ hne
    | d =>
      cases val with
      | none =>
        show jsGet (jsDel (pureReplay (pureRoot rm) us) k) k' = _
        exact jsGet_jsDel_ne _ hne
      | some w =>
        rw [pureApply_del_some]
        by_cases hlen :
            (((jsGet (pureReplay (pureRoot rm) us) k).getD []).erase w).length > 0
        · rw [if_pos hlen]
          exact jsGet_jsSet_ne _ _ hne
        · rw [if_neg hlen]
          exact jsGet_jsDel_ne _ hne

/-- Witness for C3 at a concrete input: an `append` on `a` leaves key `b`
unchanged. -/
theorem C3_update_replay_semantics_witness :
    dGetAll [("a".data, ["1".data])] [⟨"a".data, some "2".data, .a⟩] "b".data
      = dGetAll [("a".data, ["1".data])] [] "b".data :=
  (C3_update_replay_semantics [("a".data, ["1".data])] [] "a".data
      "2".data).2.2.2.2.2 "b".data (by decide) (some "2".data) UpOp.a

/-- Counterexample to C3 as stated: `delete("a", "x")` with `"x"` absent is
claimed to be a no-op, but over `fromObject({a: []})` (key present, empty
value list) it removes the key — `has("a")` flips from `true` to `false`. -/
theorem C3_counterexample_delete_absent_value_drops_empty_key :
    dHas [("a".data, [])] [] "a".data = true
    ∧ dHas [("a".data, [])] [⟨"a".data, some "x".data, .d⟩] "a".data = false := by
  decide

/-- C6: for a request built with URL `u` and a parameter container: an empty
serialization leaves `urlWithParams = u`; a non-empty serialization `s` is
joined with `?` when `u` contains no `?`, with `&` when some `?` occurs
before the last character of `u`, and with no separator when `u` ends in its
only `?`; the constructor computes exactly this join over the serialization
of the cloned container (once, at construction — `urlWithParams` is a plain
field of the constructed value); and the spec's example
`{url: "/x?y=1", params: fromObject({z: 2})}` yields `"/x?y=1&z=2"`. -/
theorem C6_urlWithParams_join :
    (∀ u : StrV, computeUrlWithParams u [] = u)
    ∧ (∀ u s : StrV, s ≠ [] → '?' ∉ u → computeUrlWithParams u s = u ++ '?' :: s)
    ∧ (∀ u s : StrV, s ≠ [] → (∃ i, i + 1 < u.length ∧ u[i]? = some '?') →
        computeUrlWithParams u s = u ++ '&' :: s)
    ∧ (∀ u s : StrV, s ≠ [] → u.getLast? = some '?' →
        (∀ i, i + 1 < u.length → u[i]? ≠ some '?') →
        computeUrlWithParams u s = u ++ s)
    ∧ (∀ (w : PWorld) (url : StrV) (p : Nat),
        (mkUrlWithParams w url (some p)).2
          = computeUrlWithParams url
              (toStringP (cloneP w p none).1 (cloneP w p none).2).2)
    ∧ (mkUrlWithParams objZ.1 "/x?y=1".data (some objZ.2)).2 = "/x?y=1&z=2".data := by
  refine ⟨fun u => by simp [computeUrlWithParams], ?_, ?_, ?_, fun w url p => rfl, by decide⟩
  · intro u s hs hq
    rw [computeUrlWithParams, if_neg (by simpa using hs)]
    have : jsIndexOfQ u = none := by
      rw [jsIndexOfQ, List.findIdx?_eq_none_iff]
      intro x hx
      simp only [decide_eq_false_iff_not]
      rintro rfl
      exact hq hx
    rw [this]
  · intro u s hs ⟨i, hi, hq⟩
    obtain ⟨j, hj, hji, hjq⟩ := findIdxQ_first u i hq
    rw [computeUrlWithParams, if_neg (by simpa using hs), hj]
    show (if j < u.length - 1 then u ++ '&' :: s else u ++ s) = u ++ '&' :: s
    rw [if_pos (by omega)]
  · intro u s hs hlast hno
    have hne : u ≠ [] := by rintro rfl; simp at hlast
    rw [List.getLast?_eq_getElem?] at hlast
    obtain ⟨j, hj, hji, hjq⟩ := findIdxQ_first u (u.length - 1) hlast
    have hlen : 0 < u.length := List.length_pos.mpr hne
    have : j = u.length - 1 := by
      by_contra hne2
      exact hno j (by omega) hjq
    rw [computeUrlWithParams, if_neg (by simpa using hs), hj]
    show (if j < u.length - 1 then u ++ '&' :: s else u ++ s) = u ++ s
    rw [if_neg (by omega)]

/-- Witness for C6: joining `"a=1"` onto the query-less URL `"/x"` uses `?`. -/
theorem C6_urlWithParams_join_witness :
    "a=1".data ≠ [] ∧ '?' ∉ "/x".data
    ∧ computeUrlWithParams "/x".data "a=1".data = "/x?a=1".data :=
  ⟨by decide, by decide,
    C6_urlWithParams_join.2.1 "/x".data "a=1".data (by decide) (by decide)⟩

/-! ## C7: the round-trip of `paramParser` and `toString`

The development below relates `standardEncodingL` (the default codec's
encoder) to the per-character blocks `stdChar`, shows `decodeURIComponentL`
inverts it, and then replays `paramParser` over a rendered mapping. -/

/-- A character other than `%` never starts a regex match. -/
theorem stdReplace_cons_ne {c : Char} (hc : c ≠ '%') (t : List Char) :
    stdReplace (c :: t) = c :: stdReplace t :=
  stdReplace.eq_2 c t (fun _ _ _ h _ => absurd h hc)

set_option maxRecDepth 8000 in
/-- Hex digits of one encoded byte: uppercase hex is never `%`. -/
theorem hexUpper_ne_pct : ∀ x < 16, hexUpper x ≠ '%' := by decide

set_option maxRecDepth 8000 in
/-- `decodeURIComponent` reads back the digit written by `encodeURIComponent`. -/
theorem hexVal_hexUpper : ∀ x < 16, hexVal? (hexUpper x) = some x := by decide

set_option maxRecDepth 8000 in
/-- When the regex guard rejects an escape, the replacement table also has no
entry for it. -/
theorem stdRepl_none_of_guard_false : ∀ b < 256,
    ((hexUpper (b / 16)).isDigit && hexCI (hexUpper (b % 16))) = false →
      stdRepl? (hexUpper (b / 16)) (hexUpper (b % 16)) = none := by decide

set_option maxRecDepth 8000 in
/-- Every byte's post-processed block is either the untouched escape or the
single literal character with that code, never `%`. -/
theorem stdByte_cases : ∀ b < 256,
    (stdByte b = pctEscape b ∧ stdTok b = .byte b)
    ∨ (stdByte b = [Char.ofNat b] ∧ stdTok b = .raw (Char.ofNat b)
        ∧ Char.ofNat b ≠ '%') := by decide

set_option maxRecDepth 8000 in
/-- Bytes at `0x80` and above are never replaced by the table. -/
theorem stdByte_high : ∀ b < 256, 0x80 ≤ b →
    stdByte b = pctEscape b ∧ stdTok b = .byte b := by decide

/-- One escaped byte block passes through the regex replace as `stdByte`. -/
theorem stdReplace_pctEscape {b : Nat} (hb : b < 256) (r : List Char) :
    stdReplace (pctEscape b ++ r) = stdByte b ++ stdReplace r := by
  have hhi := Nat.div_lt_iff_lt_mul (by omega : 0 < 16) |>.mpr (by omega : b < 16 * 16)
  have hlo : b % 16 < 16 := Nat.mod_lt _ (by omega)
  show stdReplace ('%' :: hexUpper (b / 16) :: hexUpper (b % 16) :: r) = _
  rw [stdReplace.eq_1]
  by_cases hg : ((hexUpper (b / 16)).isDigit && hexCI (hexUpper (b % 16))) = true
  · rw [if_pos hg]
    show (match stdRepl? (hexUpper (b / 16)) (hexUpper (b % 16)) with
        | some r => [r]
        | none => ['%', hexUpper (b / 16), hexUpper (b % 16)]) ++ stdReplace r
      = stdByte b ++ stdReplace r
    rw [stdByte]
    cases stdRepl? (hexUpper (b / 16)) (hexUpper (b % 16)) with
    | none => rfl
    | some c => rfl
  · rw [if_neg hg]
    have hnone := stdRepl_none_of_guard_false b hb (Bool.not_eq_true _ ▸ hg)
    rw [stdReplace_cons_ne (hexUpper_ne_pct _ hhi),
      stdReplace_cons_ne (hexUpper_ne_pct _ hlo), stdByte, hnone]
    rfl

/-- A run of escaped byte blocks passes through the regex replace bytewise. -/
theorem stdReplace_flatMap_pctEscape (bs : List Nat) (hbs : ∀ b ∈ bs, b < 256)
    (r : List Char) :
    stdReplace (bs.flatMap pctEscape ++ r) = bs.flatMap stdByte ++ stdReplace r := by
  induction bs with
  | nil => rfl
  | cons b bs ih =>
    rw [List.flatMap_cons, List.append_assoc,
      stdReplace_pctEscape (hbs b (List.mem_cons_self _ _)),
      ih (fun x hx => hbs x (List.mem_cons_of_mem _ hx)),
      List.flatMap_cons, List.append_assoc]

/-- Every UTF-8 byte is below 256. -/
theorem utf8Bytes_lt_256 (c : Char) : ∀ b ∈ utf8Bytes c, b < 256 := by
  have hv : c.toNat < 0x110000 := by
    rcases (c.valid : c.toNat < 0xd800 ∨ (0xdfff < c.toNat ∧ c.toNat < 0x110000))
      with h | h
    · exact Nat.lt_trans h (by omega)
    · exact h.2
  intro b hb
  rw [utf8Bytes] at hb
  by_cases h1 : c.toNat < 0x80
  · rw [if_pos h1] at hb
    simp only [List.mem_singleton] at hb
    omega
  · rw [if_neg h1] at hb
    by_cases h2 : c.toNat < 0x800
    · rw [if_pos h2] at hb
      simp only [List.mem_cons, List.not_mem_nil, or_false] at hb
      rcases hb with hb | hb <;> omega
    · rw [if_neg h2] at hb
      by_cases h3 : c.toNat < 0x10000
      · rw [if_pos h3] at hb
        simp only [List.mem_cons, List.not_mem_nil, or_false] at hb
        rcases hb with hb | hb | hb <;> omega
      · rw [if_neg h3] at hb
        simp only [List.mem_cons, List.not_mem_nil, or_false] at hb
        rcases hb with hb | hb | hb | hb <;> omega

/-- A character in the unescaped set is not `%`, `&`, `=`, `?`. -/
theorem uriUnescaped_ne (c : Char) (hu : uriUnescaped c = true) :
    c ≠ '%' ∧ c ≠ '&' ∧ c ≠ '=' ∧ c ≠ '?' := by
  refine ⟨?_, ?_, ?_, ?_⟩ <;> rintro rfl <;> revert hu <;> decide

/-- One input character's block passes through the regex replace as `stdChar`. -/
theorem stdReplace_encChar (c : Char) (r : List Char) :
    stdReplace (encChar c ++ r) = stdChar c ++ stdReplace r := by
  rw [encChar, stdChar]
  by_cases hu : uriUnescaped c = true
  · rw [if_pos hu, if_pos hu]
    exact stdReplace_cons_ne (uriUnescaped_ne c hu).1 r
  · rw [if_neg hu, if_neg hu]
    exact stdReplace_flatMap_pctEscape _ (utf8Bytes_lt_256 c) r

/-- `standardEncoding` is the concatenation of per-character blocks. -/
theorem standardEncodingL_flatMap (s : List Char) :
    standardEncodingL s = s.flatMap stdChar := by
  rw [standardEncodingL, encodeURIComponentL]
  induction s with
  | nil => rfl
  | cons c s ih =>
    rw [List.flatMap_cons, stdReplace_encChar, ih, List.flatMap_cons]

/-- `contByte` by bounds. -/
theorem contByte_of {b : Nat} (h1 : 0x80 ≤ b) (h2 : b ≤ 0xBF) : contByte b = true := by
  rw [contByte]
  simp only [Bool.and_eq_true, decide_eq_true_eq]
  exact ⟨h1, h2⟩

/-- Reduction of the tokenizer over a verbatim character. -/
theorem uriTokens_cons_ne {c : Char} (hc : c ≠ '%') (r : List Char) :
    uriTokens (c :: r) = (uriTokens r).map (.raw c :: ·) := by
  match r with
  | [] =>
    show (if c = '%' then none else (uriTokens []).map (.raw c :: ·)) = _
    rw [if_neg hc]
  | [a] =>
    show (if c = '%' then none else (uriTokens [a]).map (.raw c :: ·)) = _
    rw [if_neg hc]
  | a :: b :: rest => rw [uriTokens.eq_2, if_neg hc]

/-- The tokenizer turns one untouched escape back into its byte. -/
theorem uriTokens_pctEscape {b : Nat} (hb : b < 256) (r : List Char) :
    uriTokens (pctEscape b ++ r) = (uriTokens r).map (.byte b :: ·) := by
  have hhi : b / 16 < 16 := by omega
  have hlo : b % 16 < 16 := by omega
  show uriTokens ('%' :: hexUpper (b / 16) :: hexUpper (b % 16) :: r) = _
  rw [uriTokens.eq_2, if_pos rfl, hexVal_hexUpper _ hhi, hexVal_hexUpper _ hlo]
  show (uriTokens r).map (.byte (16 * (b / 16) + b % 16) :: ·) = _
  have harg : 16 * (b / 16) + b % 16 = b := by omega
  rw [harg]

/-- The tokenizer recovers one token per post-processed byte block. -/
theorem uriTokens_flatMap_stdByte (bs : List Nat) (hbs : ∀ b ∈ bs, b < 256)
    (r : List Char) :
    uriTokens (bs.flatMap stdByte ++ r) = (uriTokens r).map (bs.map stdTok ++ ·) := by
  induction bs with
  | nil =>
    show uriTokens r = (uriTokens r).map (fun x => List.map stdTok [] ++ x)
    cases uriTokens r <;> rfl
  | cons b bs ih =>
    have hb := hbs b (List.mem_cons_self _ _)
    have ih' := ih (fun x hx => hbs x (List.mem_cons_of_mem _ hx))
    rw [List.flatMap_cons, List.append_assoc, List.map_cons]
    rcases stdByte_cases b hb with ⟨hsb, hst⟩ | ⟨hsb, hst, hne⟩
    · rw [hsb, uriTokens_pctEscape hb, ih', hst]
      cases uriTokens r <;> rfl
    · rw [hsb, hst]
      show uriTokens (Char.ofNat b :: (bs.flatMap stdByte ++ r)) = _
      rw [uriTokens_cons_ne hne, ih']
      cases uriTokens r <;> rfl

/-- The tokenizer recovers `charToks` from one character's block. -/
theorem uriTokens_stdChar (c : Char) (r : List Char) :
    uriTokens (stdChar c ++ r) = (uriTokens r).map (charToks c ++ ·) := by
  rw [stdChar, charToks]
  by_cases hu : uriUnescaped c = true
  · rw [if_pos hu, if_pos hu]
    show uriTokens (c :: r) = _
    rw [uriTokens_cons_ne (uriUnescaped_ne c hu).1]
    cases uriTokens r <;> rfl
  · rw [if_neg hu, if_neg hu]
    exact uriTokens_flatMap_stdByte _ (utf8Bytes_lt_256 c) r

/-- The tokenizer on a whole `standardEncoding` output. -/
theorem uriTokens_flatMap_stdChar (s : List Char) :
    uriTokens (s.flatMap stdChar) = some (s.flatMap charToks) := by
  induction s with
  | nil => rfl
  | cons c s ih =>
    rw [List.flatMap_cons, uriTokens_stdChar, ih, List.flatMap_cons]
    rfl

/-- Reduction of the decoding phase on a byte token, verbatim from the
definition. -/
theorem decodeToks_byte (b : Nat) (rest : List UriTok) :
    decodeToks (.byte b :: rest)
      = (if b < 0x80 then
          (decodeToks rest).map (Char.ofNat b :: ·)
        else if 0xC2 ≤ b ∧ b ≤ 0xDF then
          match rest with
          | .byte b1 :: rest' =>
            if contByte b1 then
              (decodeToks rest').map (Char.ofNat ((b - 0xC0) * 64 + (b1 - 0x80)) :: ·)
            else none
          | _ => none
        else if 0xE0 ≤ b ∧ b ≤ 0xEF then
          match rest with
          | .byte b1 :: .byte b2 :: rest' =>
            if contByte b1 ∧ contByte b2 ∧ (b = 0xE0 → 0xA0 ≤ b1) ∧ (b = 0xED → b1 ≤ 0x9F) then
              (decodeToks rest').map
                (Char.ofNat ((b - 0xE0) * 4096 + (b1 - 0x80) * 64 + (b2 - 0x80)) :: ·)
            else none
          | _ => none
        else if 0xF0 ≤ b ∧ b ≤ 0xF4 then
          match rest with
          | .byte b1 :: .byte b2 :: .byte b3 :: rest' =>
            if contByte b1 ∧ contByte b2 ∧ contByte b3 ∧
                (b = 0xF0 → 0x90 ≤ b1) ∧ (b = 0xF4 → b1 ≤ 0x8F) then
              (decodeToks rest').map
                (Char.ofNat
                  ((b - 0xF0) * 0x40000 + (b1 - 0x80) * 4096 + (b2 - 0x80) * 64 + (b3 - 0x80)) :: ·)
            else none
          | _ => none
        else none) := by
  match rest with
  | [] => rfl
  | .raw c1 :: t => rfl
  | [.byte b1] => rfl
  | .byte b1 :: .raw c2 :: t => rfl
  | [.byte b1, .byte b2] => rfl
  | .byte b1 :: .byte b2 :: .raw c3 :: t => rfl
  | .byte b1 :: .byte b2 :: .byte b3 :: t => rfl

/-- The strict UTF-8 decoding phase recovers the character from its token
run. -/
theorem decodeToks_charToks (c : Char) (ts : List UriTok) :
    decodeToks (charToks c ++ ts) = (decodeToks ts).map (c :: ·) := by
  have hval : c.toNat < 0xd800 ∨ (0xdfff < c.toNat ∧ c.toNat < 0x110000) := c.valid
  have hlt : c.toNat < 0x110000 := by
    rcases hval with h | h
    · exact Nat.lt_trans h (by omega)
    · exact h.2
  rw [charToks]
  by_cases hu : uriUnescaped c = true
  · rw [if_pos hu]
    rfl
  · rw [if_neg hu, utf8Bytes]
    by_cases h1 : c.toNat < 0x80
    · rw [if_pos h1]
      show decodeToks (stdTok c.toNat :: ts) = _
      rcases stdByte_cases c.toNat (by omega) with ⟨_, hst⟩ | ⟨_, hst, _⟩
      · rw [hst, decodeToks_byte, if_pos h1, Char.ofNat_toNat]
      · rw [hst, Char.ofNat_toNat]
        rfl
    · rw [if_neg h1]
      by_cases h2 : c.toNat < 0x800
      · rw [if_pos h2]
        show decodeToks
            (stdTok (0xC0 + c.toNat / 64) :: stdTok (0x80 + c.toNat % 64) :: ts) = _
        rw [(stdByte_high (0xC0 + c.toNat / 64) (by omega) (by omega)).2,
          (stdByte_high (0x80 + c.toNat % 64) (by omega) (by omega)).2]
        rw [decodeToks_byte, if_neg (by omega),
          if_pos (by omega :
            0xC2 ≤ 0xC0 + c.toNat / 64 ∧ 0xC0 + c.toNat / 64 ≤ 0xDF)]
        dsimp only
        rw [if_pos (contByte_of (by omega) (by omega))]
        have harg : (0xC0 + c.toNat / 64 - 0xC0) * 64 + (0x80 + c.toNat % 64 - 0x80)
            = c.toNat := by omega
        rw [harg, Char.ofNat_toNat]
      · rw [if_neg h2]
        by_cases h3 : c.toNat < 0x10000
        · rw [if_pos h3]
          show decodeToks
              (stdTok (0xE0 + c.toNat / 4096) :: stdTok (0x80 + c.toNat / 64 % 64)
                :: stdTok (0x80 + c.toNat % 64) :: ts) = _
          rw [(stdByte_high (0xE0 + c.toNat / 4096) (by omega) (by omega)).2,
            (stdByte_high (0x80 + c.toNat / 64 % 64) (by omega) (by omega)).2,
            (stdByte_high (0x80 + c.toNat % 64) (by omega) (by omega)).2]
          rw [decodeToks_byte, if_neg (by omega),
            if_neg (by omega :
              ¬ (0xC2 ≤ 0xE0 + c.toNat / 4096 ∧ 0xE0 + c.toNat / 4096 ≤ 0xDF)),
            if_pos (by omega :
              0xE0 ≤ 0xE0 + c.toNat / 4096 ∧ 0xE0 + c.toNat / 4096 ≤ 0xEF)]
          dsimp only
          rw [if_pos (show contByte (0x80 + c.toNat / 64 % 64) = true
                ∧ contByte (0x80 + c.toNat % 64) = true
                ∧ (0xE0 + c.toNat / 4096 = 0xE0 → 0xA0 ≤ 0x80 + c.toNat / 64 % 64)
                ∧ (0xE0 + c.toNat / 4096 = 0xED → 0x80 + c.toNat / 64 % 64 ≤ 0x9F) from
              ⟨contByte_of (by omega) (by omega), contByte_of (by omega) (by omega),
               fun he => by omega,
               fun he => by rcases hval with h | h <;> omega⟩)]
          have harg : (0xE0 + c.toNat / 4096 - 0xE0) * 4096
              + (0x80 + c.toNat / 64 % 64 - 0x80) * 64 + (0x80 + c.toNat % 64 - 0x80)
              = c.toNat := by omega
          rw [harg, Char.ofNat_toNat]
        · rw [if_neg h3]
          show decodeToks
              (stdTok (0xF0 + c.toNat / 0x40000) :: stdTok (0x80 + c.toNat / 4096 % 64)
                :: stdTok (0x80 + c.toNat / 64 % 64) :: stdTok (0x80 + c.toNat % 64)
                :: ts) = _
          rw [(stdByte_high (0xF0 + c.toNat / 0x40000) (by omega) (by omega)).2,
            (stdByte_high (0x80 + c.toNat / 4096 % 64) (by omega) (by omega)).2,
            (stdByte_high (0x80 + c.toNat / 64 % 64) (by omega) (by omega)).2,
            (stdByte_high (0x80 + c.toNat % 64) (by omega) (by omega)).2]
          rw [decodeToks_byte, if_neg (by omega),
            if_neg (by omega :
              ¬ (0xC2 ≤ 0xF0 + c.toNat / 0x40000 ∧ 0xF0 + c.toNat / 0x40000 ≤ 0xDF)),
            if_neg (by omega :
              ¬ (0xE0 ≤ 0xF0 + c.toNat / 0x40000 ∧ 0xF0 + c.toNat / 0x40000 ≤ 0xEF)),
            if_pos (by omega :
              0xF0 ≤ 0xF0 + c.toNat / 0x40000 ∧ 0xF0 + c.toNat / 0x40000 ≤ 0xF4)]
          dsimp only
          rw [if_pos (show contByte (0x80 + c.toNat / 4096 % 64) = true
                ∧ contByte (0x80 + c.toNat / 64 % 64) = true
                ∧ contByte (0x80 + c.toNat % 64) = true
                ∧ (0xF0 + c.toNat / 0x40000 = 0xF0 → 0x90 ≤ 0x80 + c.toNat / 4096 % 64)
                ∧ (0xF0 + c.toNat / 0x40000 = 0xF4 → 0x80 + c.toNat / 4096 % 64 ≤ 0x8F) from
              ⟨contByte_of (by omega) (by omega), contByte_of (by omega) (by omega),
               contByte_of (by omega) (by omega),
               fun he => by omega, fun he => by omega⟩)]
          have harg : (0xF0 + c.toNat / 0x40000 - 0xF0) * 0x40000
              + (0x80 + c.toNat / 4096 % 64 - 0x80) * 4096
              + (0x80 + c.toNat / 64 % 64 - 0x80) * 64 + (0x80 + c.toNat % 64 - 0x80)
              = c.toNat := by omega
          rw [harg, Char.ofNat_toNat]

/-- The decoding phase on a whole `standardEncoding` token stream. -/
theorem decodeToks_flatMap_charToks (s : List Char) :
    decodeToks (s.flatMap charToks) = some s := by
  induction s with
  | nil => rfl
  | cons c s ih =>
    rw [List.flatMap_cons, decodeToks_charToks, ih]
    rfl

/-- The default codec's decode inverts its encode on every string: the table
only unescapes single-byte escapes to literal characters that decode reads
back verbatim. -/
theorem decode_standardEncoding (s : List Char) :
    decodeURIComponentL (standardEncodingL s) = some s := by
  rw [decodeURIComponentL, standardEncodingL_flatMap, uriTokens_flatMap_stdChar]
  exact decodeToks_flatMap_charToks s

set_option maxRecDepth 8000 in
/-- No post-processed byte block contains `&` (the table never unescapes
`%26`). -/
theorem amp_not_mem_stdByte : ∀ b < 256, '&' ∉ stdByte b := by decide

set_option maxRecDepth 8000 in
/-- A post-processed byte block contains `=` only for the byte `0x3D` (the
table unescapes `%3D`). -/
theorem eq_mem_stdByte : ∀ b < 256, '=' ∈ stdByte b → b = 0x3D := by decide

set_option maxRecDepth 8000 in
/-- No post-processed byte block is empty. -/
theorem stdByte_ne_nil : ∀ b < 256, stdByte b ≠ [] := by decide

set_option maxRecDepth 8000 in
/-- A post-processed byte block starts with `?` only for the byte `0x3F`. -/
theorem stdByte_head_q : ∀ b < 256, (stdByte b).head? = some '?' → b = 0x3F := by
  decide

/-- The single-byte UTF-8 case. -/
theorem utf8Bytes_ascii {c : Char} (h : c.toNat < 0x80) : utf8Bytes c = [c.toNat] := by
  rw [utf8Bytes, if_pos h]

/-- Multi-byte UTF-8 encodings consist of bytes at `0x80` and above. -/
theorem utf8Bytes_high {c : Char} (h : ¬ c.toNat < 0x80) :
    ∀ b ∈ utf8Bytes c, 0x80 ≤ b := by
  intro b hb
  rw [utf8Bytes, if_neg h] at hb
  by_cases h2 : c.toNat < 0x800
  · rw [if_pos h2] at hb
    simp only [List.mem_cons, List.not_mem_nil, or_false] at hb
    rcases hb with hb | hb <;> omega
  · rw [if_neg h2] at hb
    by_cases h3 : c.toNat < 0x10000
    · rw [if_pos h3] at hb
      simp only [List.mem_cons, List.not_mem_nil, or_false] at hb
      rcases hb with hb | hb | hb <;> omega
    · rw [if_neg h3] at hb
      simp only [List.mem_cons, List.not_mem_nil, or_false] at hb
      rcases hb with hb | hb | hb | hb <;> omega

/-- `&` never occurs in a `standardEncoding` output. -/
theorem amp_not_mem_standardEncodingL (s : List Char) :
    '&' ∉ standardEncodingL s := by
  rw [standardEncodingL_flatMap]
  intro hmem
  rw [List.mem_flatMap] at hmem
  obtain ⟨c, hc, hmem⟩ := hmem
  rw [stdChar] at hmem
  by_cases hu : uriUnescaped c = true
  · rw [if_pos hu] at hmem
    rw [List.mem_singleton] at hmem
    exact (uriUnescaped_ne c hu).2.1 hmem.symm
  · rw [if_neg hu] at hmem
    rw [List.mem_flatMap] at hmem
    obtain ⟨b, hb, hmem⟩ := hmem
    exact amp_not_mem_stdByte b (utf8Bytes_lt_256 c b hb) hmem

/-- `=` occurs in a `standardEncoding` output only when it occurs in the
source (the table unescapes `%3D` back to `=`). -/
theorem eq_mem_standardEncodingL {s : List Char} (hs : '=' ∉ s) :
    '=' ∉ standardEncodingL s := by
  rw [standardEncodingL_flatMap]
  intro hmem
  rw [List.mem_flatMap] at hmem
  obtain ⟨c, hc, hmem⟩ := hmem
  rw [stdChar] at hmem
  by_cases hu : uriUnescaped c = true
  · rw [if_pos hu] at hmem
    rw [List.mem_singleton] at hmem
    exact hs (hmem ▸ hc)
  · rw [if_neg hu] at hmem
    rw [List.mem_flatMap] at hmem
    obtain ⟨b, hb, hmem⟩ := hmem
    have hb3d := eq_mem_stdByte b (utf8Bytes_lt_256 c b hb) hmem
    subst hb3d
    by_cases ha : c.toNat < 0x80
    · rw [utf8Bytes_ascii ha] at hb
      rw [List.mem_singleton] at hb
      have : c = '=' := by
        rw [← Char.ofNat_toNat c, ← hb]
      exact hs (this ▸ hc)
    · exact absurd (utf8Bytes_high ha _ hb) (by omega)

/-- `standardEncoding` never produces the empty string from a character. -/
theorem stdChar_ne_nil (c : Char) : stdChar c ≠ [] := by
  rw [stdChar]
  by_cases hu : uriUnescaped c = true
  · rw [if_pos hu]
    exact List.cons_ne_nil c []
  · rw [if_neg hu]
    intro hnil
    have hb : ∃ b bs, utf8Bytes c = b :: bs := by
      rw [utf8Bytes]
      by_cases h1 : c.toNat < 0x80
      · rw [if_pos h1]; exact ⟨_, _, rfl⟩
      · rw [if_neg h1]
        by_cases h2 : c.toNat < 0x800
        · rw [if_pos h2]; exact ⟨_, _, rfl⟩
        · rw [if_neg h2]
          by_cases h3 : c.toNat < 0x10000
          · rw [if_pos h3]; exact ⟨_, _, rfl⟩
          · rw [if_neg h3]; exact ⟨_, _, rfl⟩
    obtain ⟨b, bs, hbs⟩ := hb
    rw [hbs, List.flatMap_cons] at hnil
    have hbne := stdByte_ne_nil b (utf8Bytes_lt_256 c b (hbs ▸ List.mem_cons_self _ _))
    rcases List.append_eq_nil.mp hnil with ⟨h1, _⟩
    exact hbne h1

/-- A character's block starts with `?` only for the character `?` itself. -/
theorem stdChar_head_q {c : Char} {xs : List Char} (hh : stdChar c = '?' :: xs) :
    c = '?' := by
  rw [stdChar] at hh
  by_cases hu : uriUnescaped c = true
  · rw [if_pos hu] at hh
    cases hh
    rfl
  · rw [if_neg hu] at hh
    by_cases ha : c.toNat < 0x80
    · rw [utf8Bytes_ascii ha] at hh
      rw [List.flatMap_cons] at hh
      have hbq : ∃ t, stdByte c.toNat = '?' :: t := by
        rcases he : stdByte c.toNat with _ | ⟨x, t⟩
        · exact absurd he (stdByte_ne_nil c.toNat (by omega))
        · rw [he] at hh
          rw [List.cons_append] at hh
          cases hh
          exact ⟨t, rfl⟩
      obtain ⟨t, ht⟩ := hbq
      have h3f := stdByte_head_q c.toNat (by omega) (by rw [ht]; rfl)
      rw [← Char.ofNat_toNat c, h3f]
    · have hb : ∃ b bs, utf8Bytes c = b :: bs ∧ 0x80 ≤ b := by
        rcases he : utf8Bytes c with _ | ⟨b, bs⟩
        · rw [he] at hh
          simp at hh
        · exact ⟨b, bs, rfl, utf8Bytes_high ha b (he ▸ List.mem_cons_self _ _)⟩
      obtain ⟨b, bs, hbs, hbhigh⟩ := hb
      rw [hbs, List.flatMap_cons] at hh
      have hbne := stdByte_ne_nil b (utf8Bytes_lt_256 c b (hbs ▸ List.mem_cons_self _ _))
      rcases he : stdByte b with _ | ⟨x, t⟩
      · exact absurd he hbne
      · rw [he, List.cons_append] at hh
        cases hh
        have := stdByte_head_q b (utf8Bytes_lt_256 c b (hbs ▸ List.mem_cons_self _ _))
          (by rw [he]; rfl)
        omega

/-- `split` on a separator-free string gives one piece. -/
theorem jsSplitOn_not_mem {sep : Char} : ∀ {x : List Char}, sep ∉ x →
    jsSplitOn sep x = [x] := by
  intro x
  induction x with
  | nil => intro _; rfl
  | cons c cs ih =>
    intro h
    have hc : ¬ (c = sep) := fun he => h (he ▸ List.mem_cons_self c cs)
    have hcs : sep ∉ cs := fun hm => h (List.mem_cons_of_mem _ hm)
    simp only [jsSplitOn]
    rw [if_neg hc, ih hcs]

/-- `split` peels one separator-free piece before a separator. -/
theorem jsSplitOn_append {sep : Char} : ∀ {x : List Char}, sep ∉ x →
    ∀ y : List Char, jsSplitOn sep (x ++ sep :: y) = x :: jsSplitOn sep y := by
  intro x
  induction x with
  | nil =>
    intro _ y
    show jsSplitOn sep (sep :: y) = [] :: jsSplitOn sep y
    simp only [jsSplitOn]
    rw [if_true]
  | cons c cs ih =>
    intro h y
    have hc : ¬ (c = sep) := fun he => h (he ▸ List.mem_cons_self c cs)
    have hcs : sep ∉ cs := fun hm => h (List.mem_cons_of_mem _ hm)
    rw [List.cons_append]
    simp only [jsSplitOn]
    rw [if_neg hc, ih hcs y]

/-- `join("&")` distributes over list append for non-empty halves. -/
theorem joinAmp_append : ∀ {g : List (List Char)}, g ≠ [] →
    ∀ {h : List (List Char)}, h ≠ [] →
    joinAmp (g ++ h) = joinAmp g ++ '&' :: joinAmp h := by
  intro g
  induction g with
  | nil => intro hg; exact absurd rfl hg
  | cons p g ih =>
    intro _ h hh
    cases g with
    | nil =>
      cases h with
      | nil => exact absurd rfl hh
      | cons q qs => rfl
    | cons p2 g2 =>
      show p ++ '&' :: joinAmp (p2 :: g2 ++ h)
          = (p ++ '&' :: joinAmp (p2 :: g2)) ++ '&' :: joinAmp h
      rw [ih (List.cons_ne_nil _ _) hh, List.append_assoc]
      rfl

/-- `split("&")` inverts `join("&")` over `&`-free pieces. -/
theorem jsSplitOn_joinAmp : ∀ {ps : List (List Char)}, ps ≠ [] →
    (∀ p ∈ ps, '&' ∉ p) → jsSplitOn '&' (joinAmp ps) = ps := by
  intro ps
  induction ps with
  | nil => intro h; exact absurd rfl h
  | cons p ps ih =>
    intro _ hfree
    cases ps with
    | nil => exact jsSplitOn_not_mem (hfree p (List.mem_cons_self _ _))
    | cons q qs =>
      rw [show joinAmp (p :: q :: qs) = p ++ '&' :: joinAmp (q :: qs) from rfl]
      rw [jsSplitOn_append (hfree p (List.mem_cons_self _ _)),
        ih (List.cons_ne_nil _ _) (fun x hx => hfree x (List.mem_cons_of_mem _ hx))]

/-- `join("&")` of per-group joins is the join of the flattened pieces. -/
theorem joinAmp_flatten : ∀ {gs : List (List (List Char))}, (∀ g ∈ gs, g ≠ []) →
    joinAmp (gs.map joinAmp) = joinAmp gs.flatten := by
  intro gs
  induction gs with
  | nil => intro _; rfl
  | cons g gs ih =>
    intro hne
    rw [List.map_cons, List.flatten_cons]
    cases gs with
    | nil =>
      show joinAmp [joinAmp g] = joinAmp (g ++ [].flatten)
      rw [List.flatten_nil, List.append_nil]
      rfl
    | cons g2 gs2 =>
      have hflat : (g2 :: gs2).flatten ≠ [] := by
        intro hnil
        rw [List.flatten_cons] at hnil
        rcases List.append_eq_nil.mp hnil with ⟨h1, _⟩
        exact hne g2 (List.mem_cons_of_mem _ (List.mem_cons_self _ _)) h1
      rw [show joinAmp (joinAmp g :: (g2 :: gs2).map joinAmp)
            = joinAmp g ++ '&' :: joinAmp ((g2 :: gs2).map joinAmp) from rfl,
        ih (fun x hx => hne x (List.mem_cons_of_mem _ hx)),
        joinAmp_append (hne g (List.mem_cons_self _ _)) hflat]

/-- The first `=` of one rendered pair is the separator written between the
encoded key and the encoded value. -/
theorem findIdx_eq_sep : ∀ {x : List Char}, '=' ∉ x → ∀ y : List Char,
    (x ++ '=' :: y).findIdx? (fun c => c = '=') = some x.length := by
  intro x
  induction x with
  | nil =>
    intro _ y
    rw [List.nil_append, List.findIdx?_cons, if_pos (by simp)]
    rfl
  | cons c cs ih =>
    intro h y
    have hc : ¬ (c = '=') := fun he => h (he ▸ List.mem_cons_self c cs)
    rw [List.cons_append, List.findIdx?_cons, if_neg (by simp [hc]), List.findIdx?_succ,
      ih (fun hm => h (List.mem_cons_of_mem _ hm)) y]
    rfl

/-- Dropping past the separator recovers the encoded value. -/
theorem drop_after_sep (x : List Char) (sep : Char) (y : List Char) :
    (x ++ sep :: y).drop (x.length + 1) = y := by
  have h1 : x ++ sep :: y = (x ++ [sep]) ++ y := by
    rw [List.append_assoc]
    rfl
  have h2 : x.length + 1 = (x ++ [sep]).length := by
    rw [List.length_append]
    rfl
  rw [h1, h2, List.drop_left]

/-- `paramParser` on one rendered `key=value` pair pushes the decoded value
onto the decoded key's list. -/
theorem parsePiece_pair (m : List (List Char × List (List Char))) {k : List Char}
    (hk : '=' ∉ k) (v : List Char) :
    parsePiece m (standardEncodingL k ++ '=' :: standardEncodingL v)
      = some (jsSet m k ((jsGet m k).getD [] ++ [v])) := by
  rw [parsePiece, findIdx_eq_sep (eq_mem_standardEncodingL hk) _]
  dsimp only
  rw [List.take_left, drop_after_sep, decode_standardEncoding, decode_standardEncoding]
  rfl

/-- Lookup of a key appended at the end of a map without it. -/
theorem jsGet_append_self {α : Type} : ∀ {m : List (List Char × α)} {k : List Char},
    k ∉ jsKeys m → ∀ v : α, jsGet (m ++ [(k, v)]) k = some v := by
  intro m
  induction m with
  | nil =>
    intro k _ v
    show (if k = k then some v else none) = some v
    rw [if_pos rfl]
  | cons kv rest ih =>
    intro k h v
    obtain ⟨k', v'⟩ := kv
    have hne : ¬ (k' = k) := fun he => h (by
      rw [← he]
      exact List.mem_cons_self _ _)
    show (if k' = k then some v' else jsGet (rest ++ [(k, v)]) k) = some v
    rw [if_neg hne]
    exact ih (fun hm => h (List.mem_cons_of_mem _ hm)) v

/-- Overwrite of a key appended at the end of a map without it. -/
theorem jsSet_append_last {α : Type} : ∀ {m : List (List Char × α)} {k : List Char},
    k ∉ jsKeys m → ∀ p q : α, jsSet (m ++ [(k, p)]) k q = m ++ [(k, q)] := by
  intro m
  induction m with
  | nil =>
    intro k _ p q
    show (if k = k then (k, q) :: [] else (k, p) :: jsSet [] k q) = [(k, q)]
    rw [if_pos rfl]
  | cons kv rest ih =>
    intro k h p q
    obtain ⟨k', v'⟩ := kv
    have hne : ¬ (k' = k) := fun he => h (by
      rw [← he]
      exact List.mem_cons_self _ _)
    show (if k' = k then (k, q) :: (rest ++ [(k, p)])
        else (k', v') :: jsSet (rest ++ [(k, p)]) k q) = (k', v') :: (rest ++ [(k, q)])
    rw [if_neg hne, ih (fun hm => h (List.mem_cons_of_mem _ hm)) p q]

/-- Replaying the tail of one key's rendered group accumulates its values in
order. -/
theorem foldlM_group_inner {k : List Char} (hk : '=' ∉ k) :
    ∀ (vs : List (List Char)) (acc : List (List Char × List (List Char)))
      (p : List (List Char)), k ∉ jsKeys acc →
    (vs.map fun v => standardEncodingL k ++ '=' :: standardEncodingL v).foldlM
        parsePiece (acc ++ [(k, p)])
      = some (acc ++ [(k, p ++ vs)]) := by
  intro vs
  induction vs with
  | nil =>
    intro acc p _
    rw [List.map_nil, List.foldlM_nil, List.append_nil]
    rfl
  | cons v vs ih =>
    intro acc p hnk
    rw [List.map_cons, List.foldlM_cons, parsePiece_pair _ hk v,
      jsGet_append_self hnk p, jsSet_append_last hnk p]
    show (vs.map fun v => standardEncodingL k ++ '=' :: standardEncodingL v).foldlM
        parsePiece (acc ++ [(k, p ++ [v])]) = _
    rw [ih acc (p ++ [v]) hnk, List.append_assoc]
    rfl

/-- Replaying one key's whole rendered group appends one binding. -/
theorem foldlM_group {k : List Char} (hk : '=' ∉ k) (vs : List (List Char))
    (hvs : vs ≠ []) (acc : List (List Char × List (List Char)))
    (hnk : k ∉ jsKeys acc) :
    (vs.map fun v => standardEncodingL k ++ '=' :: standardEncodingL v).foldlM
        parsePiece acc = some (acc ++ [(k, vs)]) := by
  cases vs with
  | nil => exact absurd rfl hvs
  | cons v vs =>
    rw [List.map_cons, List.foldlM_cons, parsePiece_pair _ hk v,
      (jsGet_eq_none_iff acc k).mpr hnk, jsSet_append_of_not_mem hnk]
    show (vs.map fun v => standardEncodingL k ++ '=' :: standardEncodingL v).foldlM
        parsePiece (acc ++ [(k, [v])]) = _
    rw [foldlM_group_inner hk vs acc [v] hnk]
    rfl

/-- Replaying all rendered groups rebuilds the mapping behind the
accumulator. -/
theorem foldlM_groups : ∀ (rest acc : List (List Char × List (List Char))),
    (∀ kv ∈ rest, kv.1 ∉ jsKeys acc) → (jsKeys rest).Nodup →
    (∀ kv ∈ rest, kv.2 ≠ []) → (∀ kv ∈ rest, '=' ∉ kv.1) →
    (rest.flatMap fun kv => kv.2.map fun v =>
        standardEncodingL kv.1 ++ '=' :: standardEncodingL v).foldlM
      parsePiece acc = some (acc ++ rest) := by
  intro rest
  induction rest with
  | nil =>
    intro acc _ _ _ _
    rw [List.flatMap_nil, List.foldlM_nil, List.append_nil]
    rfl
  | cons kv rest ih =>
    intro acc hdis hnd hvals hks
    obtain ⟨k, vs⟩ := kv
    have hnd' : (k :: jsKeys rest).Nodup := hnd
    obtain ⟨hknotin, hndrest⟩ := List.nodup_cons.mp hnd'
    rw [List.flatMap_cons, List.foldlM_append,
      foldlM_group (hks _ (List.mem_cons_self _ _)) vs
        (hvals _ (List.mem_cons_self _ _)) acc
        (hdis _ (List.mem_cons_self _ _))]
    show (rest.flatMap fun kv => kv.2.map fun v =>
        standardEncodingL kv.1 ++ '=' :: standardEncodingL v).foldlM
      parsePiece (acc ++ [(k, vs)]) = _
    rw [ih (acc ++ [(k, vs)])
      (by
        intro kv hkv
        rw [jsKeys, List.map_append, List.mem_append]
        rintro (hin | hin)
        · exact hdis kv (List.mem_cons_of_mem _ hkv) hin
        · simp only [List.map_cons, List.map_nil, List.mem_singleton] at hin
          exact hknotin (hin ▸ List.mem_map.mpr ⟨kv, hkv, rfl⟩)
        )
      hndrest
      (fun kv hkv => hvals kv (List.mem_cons_of_mem _ hkv))
      (fun kv hkv => hks kv (List.mem_cons_of_mem _ hkv)),
      List.append_assoc]
    rfl

/-- A string with a separator in it is not empty. -/
theorem append_cons_ne_nil (x : List Char) (c : Char) (y : List Char) :
    x ++ c :: y ≠ [] := by
  intro h
  exact List.cons_ne_nil c y (List.append_eq_nil.mp h).2

/-- A key with at least one value renders to a non-empty group. -/
theorem renderGroup_ne_nil {k : List Char} {vs : List (List Char)} (h : vs ≠ []) :
    renderGroup k vs ≠ [] := by
  cases vs with
  | nil => exact absurd rfl h
  | cons v vs =>
    rw [renderGroup, List.map_cons]
    cases hvs : vs.map (fun v => standardEncodingL k ++ '=' :: standardEncodingL v) with
    | nil =>
      show standardEncodingL k ++ '=' :: standardEncodingL v ≠ []
      exact append_cons_ne_nil _ _ _
    | cons p ps =>
      show (standardEncodingL k ++ '=' :: standardEncodingL v) ++ '&' :: joinAmp (p :: ps) ≠ []
      intro hnil
      exact append_cons_ne_nil _ '=' _ (List.append_eq_nil.mp hnil).1

/-- `toString` splits back into exactly one piece per rendered `key=value`
pair, in mapping order. -/
theorem split_paramsToStringL (m : List (List Char × List (List Char)))
    (hvals : ∀ kv ∈ m, kv.2 ≠ []) (hm : m ≠ []) :
    jsSplitOn '&' (paramsToStringL m)
      = m.flatMap fun kv => kv.2.map fun v =>
          standardEncodingL kv.1 ++ '=' :: standardEncodingL v := by
  rw [paramsToStringL]
  have hfil : (m.map fun kv => renderGroup kv.1 kv.2).filter (· ≠ [])
      = m.map fun kv => renderGroup kv.1 kv.2 := by
    rw [List.filter_eq_self]
    intro g hg
    rw [List.mem_map] at hg
    obtain ⟨kv, hkv, rfl⟩ := hg
    exact decide_eq_true (renderGroup_ne_nil (hvals kv hkv))
  rw [hfil]
  have hmm : (m.map fun kv => renderGroup kv.1 kv.2)
      = (m.map fun kv => kv.2.map fun v =>
          standardEncodingL kv.1 ++ '=' :: standardEncodingL v).map joinAmp := by
    rw [List.map_map]
    rfl
  rw [hmm, joinAmp_flatten (by
      intro g hg
      rw [List.mem_map] at hg
      obtain ⟨kv, hkv, rfl⟩ := hg
      rw [Ne, List.map_eq_nil_iff]
      exact hvals kv hkv),
    ← List.flatMap_def]
  apply jsSplitOn_joinAmp
  · cases m with
    | nil => exact absurd rfl hm
    | cons kv rest =>
      rw [List.flatMap_cons]
      intro hnil
      have h1 := (List.append_eq_nil.mp hnil).1
      rw [List.map_eq_nil_iff] at h1
      exact hvals kv (List.mem_cons_self _ _) h1
  · intro p hp
    rw [List.mem_flatMap] at hp
    obtain ⟨kv, hkv, hp⟩ := hp
    rw [List.mem_map] at hp
    obtain ⟨v, hv, rfl⟩ := hp
    intro hamp
    rcases List.mem_append.mp hamp with h | h
    · exact amp_not_mem_standardEncodingL _ h
    · rcases List.mem_cons.mp h with h | h
      · exact absurd h (by decide)
      · exact amp_not_mem_standardEncodingL _ h

/-- A successful `paramParser` step pushes one decoded value onto one decoded
key. -/
theorem parsePiece_shape {m m' : List (List Char × List (List Char))}
    {p : List Char} (h : parsePiece m p = some m') :
    ∃ k v, m' = jsSet m k ((jsGet m k).getD [] ++ [v]) := by
  rw [parsePiece] at h
  cases hf : p.findIdx? (fun c => c = '=') with
  | none =>
    rw [hf] at h
    rcases Option.map_eq_some'.mp h with ⟨k, hk, hm'⟩
    exact ⟨k, [], hm'.symm⟩
  | some i =>
    rw [hf] at h
    rcases Option.bind_eq_some.mp h with ⟨k, hk, h2⟩
    rcases Option.bind_eq_some.mp h2 with ⟨v, hv, h3⟩
    exact ⟨k, v, (Option.some.inj h3).symm⟩

/-- The fold of `paramParser` keeps keys duplicate-free and value lists
non-empty. -/
theorem parse_fold_inv : ∀ (ps : List (List Char))
    (acc m : List (List Char × List (List Char))),
    ps.foldlM parsePiece acc = some m →
    (jsKeys acc).Nodup → (∀ kv ∈ acc, kv.2 ≠ []) →
    (jsKeys m).Nodup ∧ ∀ kv ∈ m, kv.2 ≠ [] := by
  intro ps
  induction ps with
  | nil =>
    intro acc m h hnd hvals
    have h' : some acc = some m := h
    obtain rfl := Option.some.inj h'
    exact ⟨hnd, hvals⟩
  | cons p ps ih =>
    intro acc m h hnd hvals
    rw [List.foldlM_cons] at h
    cases hp : parsePiece acc p with
    | none =>
      rw [hp] at h
      exact absurd h (by simp)
    | some acc1 =>
      rw [hp] at h
      obtain ⟨k, v, hacc1⟩ := parsePiece_shape hp
      refine ih acc1 m (by exact h) ?_ ?_
      · rw [hacc1]
        exact nodup_jsKeys_jsSet _ _ hnd
      · rw [hacc1]
        intro kv hkv
        rcases mem_jsSet hkv with heq | hin
        · rw [heq]
          simp
        · exact hvals kv hin

/-- The mapping produced by `paramParser` has duplicate-free keys and only
non-empty value lists. -/
theorem paramParserL_inv {s : List Char} {m : List (List Char × List (List Char))}
    (h : paramParserL s = some m) :
    (jsKeys m).Nodup ∧ ∀ kv ∈ m, kv.2 ≠ [] := by
  rw [paramParserL] at h
  by_cases hl : s.length > 0
  · rw [if_pos hl] at h
    exact parse_fold_inv _ [] m h List.nodup_nil
      (fun kv hkv => absurd hkv (List.not_mem_nil kv))
  · rw [if_neg hl] at h
    obtain rfl := Option.some.inj h
    exact ⟨List.nodup_nil, fun kv hkv => absurd hkv (List.not_mem_nil kv)⟩

/-- Only a leading `?` is stripped by `paramParser`. -/
theorem stripLeadQ_cons_ne {c : Char} (hc : c ≠ '?') (t : List Char) :
    stripLeadQ (c :: t) = c :: t :=
  stripLeadQ.eq_2 (c :: t) (fun rest he => hc (List.cons.inj he).1)

/-- Re-parsing the `toString` of a duplicate-free mapping with non-empty value
lists recovers it, provided no key contains `=` and the first key does not
start with `?`. -/
theorem reparse_paramsToStringL {m : List (List Char × List (List Char))}
    (hnd : (jsKeys m).Nodup) (hvals : ∀ kv ∈ m, kv.2 ≠ [])
    (hks : ∀ kv ∈ m, '=' ∉ kv.1)
    (hq : ∀ kv ∈ m.take 1, kv.1.head? ≠ some '?') :
    paramParserL (paramsToStringL m) = some m := by
  cases m with
  | nil => rfl
  | cons kv0 rest =>
    obtain ⟨k1, vs1⟩ := kv0
    cases vs1 with
    | nil => exact absurd rfl (hvals (k1, []) (List.mem_cons_self _ _))
    | cons v1 vs1' =>
      have hsplit := split_paramsToStringL ((k1, v1 :: vs1') :: rest) hvals
        (List.cons_ne_nil _ _)
      have hform : ∃ t0, paramsToStringL ((k1, v1 :: vs1') :: rest)
          = (standardEncodingL k1 ++ '=' :: standardEncodingL v1) ++ t0 := by
        rw [paramsToStringL]
        have hfil : (((k1, v1 :: vs1') :: rest).map fun kv =>
              renderGroup kv.1 kv.2).filter (· ≠ [])
            = ((k1, v1 :: vs1') :: rest).map fun kv => renderGroup kv.1 kv.2 := by
          rw [List.filter_eq_self]
          intro g hg
          rw [List.mem_map] at hg
          obtain ⟨kv, hkv, rfl⟩ := hg
          exact decide_eq_true (renderGroup_ne_nil (hvals kv hkv))
        rw [hfil, List.map_cons]
        have hrg1 : renderGroup k1 (v1 :: vs1')
            = joinAmp ((standardEncodingL k1 ++ '=' :: standardEncodingL v1)
                :: vs1'.map fun v =>
                  standardEncodingL k1 ++ '=' :: standardEncodingL v) := rfl
        rcases hrg : rest.map (fun kv => renderGroup kv.1 kv.2) with _ | ⟨g2, gs⟩
        · rcases hvg : vs1'.map (fun v =>
              standardEncodingL k1 ++ '=' :: standardEncodingL v) with _ | ⟨q, qs⟩
          · refine ⟨[], ?_⟩
            rw [hrg, hrg1, hvg, List.append_nil]
            rfl
          · refine ⟨'&' :: joinAmp (q :: qs), ?_⟩
            rw [hrg, hrg1, hvg]
            rfl
        · rcases hvg : vs1'.map (fun v =>
              standardEncodingL k1 ++ '=' :: standardEncodingL v) with _ | ⟨q, qs⟩
          · refine ⟨'&' :: joinAmp (g2 :: gs), ?_⟩
            rw [hrg, hrg1, hvg]
            rfl
          · refine ⟨'&' :: (joinAmp (q :: qs) ++ '&' :: joinAmp (g2 :: gs)), ?_⟩
            rw [hrg, hrg1, hvg]
            show (standardEncodingL k1 ++ '=' :: standardEncodingL v1)
                  ++ '&' :: joinAmp (q :: qs) ++ '&' :: joinAmp (g2 :: gs)
                = standardEncodingL k1 ++ '=' :: standardEncodingL v1
                  ++ '&' :: (joinAmp (q :: qs) ++ '&' :: joinAmp (g2 :: gs))
            rw [List.append_assoc]
            rfl
      obtain ⟨t0, ht0⟩ := hform
      have hx : ∃ x t, paramsToStringL ((k1, v1 :: vs1') :: rest) = x :: t
          ∧ x ≠ '?' := by
        have hpiece : ∃ x t, standardEncodingL k1 ++ '=' :: standardEncodingL v1
            = x :: t ∧ x ≠ '?' := by
          cases k1 with
          | nil =>
            refine ⟨'=', standardEncodingL v1, ?_, by decide⟩
            rw [show standardEncodingL [] = [] from rfl, List.nil_append]
          | cons c k1' =>
            have hcq : c ≠ '?' := fun he2 =>
              hq (c :: k1', v1 :: vs1') (List.mem_cons_self _ _)
                (by rw [show (c :: k1').head? = some c from rfl, he2])
            have henc : standardEncodingL (c :: k1')
                = stdChar c ++ k1'.flatMap stdChar := by
              rw [standardEncodingL_flatMap, List.flatMap_cons]
            rcases hsc : stdChar c with _ | ⟨x, xs⟩
            · exact absurd hsc (stdChar_ne_nil c)
            · refine ⟨x, (xs ++ k1'.flatMap stdChar) ++ '=' :: standardEncodingL v1,
                ?_, fun he => hcq (stdChar_head_q (he ▸ hsc))⟩
              rw [henc, hsc, List.cons_append, List.cons_append]
        obtain ⟨x, t, hxt, hxq⟩ := hpiece
        exact ⟨x, t ++ t0, by rw [ht0, hxt, List.cons_append], hxq⟩
      obtain ⟨x, t, hxt, hxq⟩ := hx
      rw [paramParserL, if_pos (by rw [hxt]; simp), hxt, stripLeadQ_cons_ne hxq,
        ← hxt, hsplit,
        foldlM_groups _ [] (fun kv _ => List.not_mem_nil _) hnd hvals hks,
        List.nil_append]

/-- C7 (amended): for every valid raw query string `s` whose parse succeeds,
provided no decoded key contains `=` and the first decoded key does not start
with `?`, `parse(s).toString()` re-parses to the same key-to-ordered-values
mapping as parsing `s` directly (per-key grouping may reorder pairs but not
the mapping). Without those provisos the round trip can change the mapping,
because the default codec's replacement table writes `=` and `?` back
unescaped into the serialized form. -/
theorem C7_parse_toString_roundtrip (s : List Char)
    (m : List (List Char × List (List Char)))
    (hp : paramParserL s = some m)
    (hks : ∀ kv ∈ m, '=' ∉ kv.1)
    (hq : ∀ kv ∈ m.take 1, kv.1.head? ≠ some '?') :
    paramParserL (paramsToStringL m) = paramParserL s := by
  obtain ⟨hnd, hvals⟩ := paramParserL_inv hp
  rw [hp]
  exact reparse_paramsToStringL hnd hvals hks hq

/-- Witness for C7 at a concrete input: `"a=1&b=2&a=3"` groups per key on
`toString` and re-parses to the same mapping. -/
theorem C7_parse_toString_roundtrip_witness :
    paramParserL (paramsToStringL
        [("a".data, ["1".data, "3".data]), ("b".data, ["2".data])])
      = paramParserL "a=1&b=2&a=3".data :=
  C7_parse_toString_roundtrip "a=1&b=2&a=3".data
    [("a".data, ["1".data, "3".data]), ("b".data, ["2".data])]
    (by decide) (by decide) (by decide)

/-- Counterexample to C7 as stated: `"a%3Db=1"` is a valid raw query string
parsing to the single key `a=b`, but `toString` writes that key's `=` back
unescaped (the codec's table maps `%3D` to `=`), and the rendered string
re-parses to the different mapping `a ↦ ["b=1"]`. -/
theorem C7_counterexample_encoded_eq_in_key :
    paramParserL "a%3Db=1".data = some [("a=b".data, ["1".data])]
    ∧ paramsToStringL [("a=b".data, ["1".data])] = "a=b=1".data
    ∧ paramParserL "a=b=1".data = some [("a".data, ["b=1".data])] := by
  decide
